import Mathlib

/-!
Verification development for the Prompt_Based_News_Recommender repository.

The repository consists of two Python source files, `src/app.py` (a Streamlit
application) and `src/recommender.py` (a script variant of the same pipeline).
This file gives a shallow embedding of the parts of that code that the claims
concern: Python string helpers (`strip`, the two `clean_gemini_response`
regex substitutions, `re.search` for the JSON-island pattern, `urlencode`),
a faithful model of `json.loads` / `json.dumps` on a JSON value type,
the recommendation extraction in both revisions (`get_gemini_recommendations`),
the feed ingestion (`fetch_news` and `fetch_all_news` / `fetch_rss_articles`),
the prompt builders, and the YouTube fallback (`fetch_youtube_videos`).

External effects (network fetches, the HTML stripper, the random sampler) are
passed in as explicit parameters, so every definition is executable.
-/

set_option maxRecDepth 16000

namespace NewsRec

/-! ### Characters and Python whitespace

`pyWs` models the characters Python's `str.strip` removes and that `\s`
matches in the `re` module on `str` inputs.  We cover the ASCII whitespace
characters together with the Latin-1 ones (U+1C–U+1F, U+85, U+A0); the rarer
Unicode space code points (U+2000 …) do not occur in any input considered
here and are omitted. -/

def lbrace : Char := Char.ofNat 123

def rbrace : Char := Char.ofNat 125

def btick : Char := Char.ofNat 96

def pyWs (c : Char) : Bool :=
  c = ' ' || c = '\t' || c = '\n' || c = '\r' ||
  c = Char.ofNat 11 || c = Char.ofNat 12 ||
  c = Char.ofNat 28 || c = Char.ofNat 29 || c = Char.ofNat 30 || c = Char.ofNat 31 ||
  c = Char.ofNat 133 || c = Char.ofNat 160

/-- Python `str.strip()` on a list of characters: drop `pyWs` characters from
both ends. -/
def stripL (l : List Char) : List Char :=
  ((l.dropWhile pyWs).reverse.dropWhile pyWs).reverse

/-- Python `str.strip()`. -/
def pyStrip (s : String) : String :=
  String.mk (stripL s.data)

/-- Test whether the character list `l` begins with the pattern `p`
(in the argument order `startsWithL p l`). -/
def startsWithL : List Char → List Char → Bool
  | [], _ => true
  | _ :: _, [] => false
  | p :: ps, c :: cs => p = c && startsWithL ps cs

/-- Test whether the pattern `p` occurs somewhere in `l` (Python `p in l`),
in the argument order `containsSubL l p`. -/
def containsSubL : List Char → List Char → Bool
  | l, p =>
    if startsWithL p l then true
    else match l with
      | [] => false
      | _ :: t => containsSubL t p

/-- Python `sub in s`. -/
def pyContains (s sub : String) : Bool :=
  containsSubL s.data sub.data

/-- Python `s.startswith(p)` (kernel-reducible, unlike `String.startsWith`). -/
def strStarts (s p : String) : Bool :=
  startsWithL p.data s.data

/-- Python `s.count(sub)` for a non-empty `sub`: the number of
non-overlapping occurrences, scanning left to right.  Fuel-based so that it
reduces in the kernel; a match consumes `p.length ≥ 1` characters and a
non-match advances by one, so fuel `l.length + 1` is always enough. -/
def countSubAux (p : List Char) : Nat → List Char → Nat
  | 0, _ => 0
  | f + 1, l =>
    if !p.isEmpty && startsWithL p l then
      countSubAux p f (l.drop p.length) + 1
    else
      match l with
      | [] => 0
      | _ :: t => countSubAux p f t

def pyCount (s sub : String) : Nat :=
  countSubAux sub.data (s.data.length + 1) s.data

example : pyStrip "  ab c\n" = "ab c" := by decide
example : pyContains "hello" "ell" = true := by decide
example : pyCount "abcabcab" "ab" = 3 := by decide
example : startsWithL "ab".data "abc".data = true := by decide

/-! ### The JSON value type

Python values produced by `json.loads`.  Numbers keep their source lexeme
(a faithful float model is not needed by any claim; the lexeme preserves
enough to re-serialize and to decide Python truthiness).  Objects are
association lists in insertion order, as Python dicts are. -/

inductive Json where
  | null
  | bool (b : Bool)
  | num (raw : String)
  | str (s : String)
  | arr (xs : List Json)
  | obj (kvs : List (String × Json))

mutual

def jbeq : Json → Json → Bool
  | .null, .null => true
  | .bool a, .bool b => a == b
  | .num a, .num b => a == b
  | .str a, .str b => a == b
  | .arr a, .arr b => jbeqA a b
  | .obj a, .obj b => jbeqO a b
  | _, _ => false

def jbeqA : List Json → List Json → Bool
  | [], [] => true
  | x :: xs, y :: ys => jbeq x y && jbeqA xs ys
  | _, _ => false

def jbeqO : List (String × Json) → List (String × Json) → Bool
  | [], [] => true
  | (k, v) :: xs, (k2, v2) :: ys => k == k2 && jbeq v v2 && jbeqO xs ys
  | _, _ => false

end

/-- Python dict lookup `kvs.get(k)`; returns the first binding (keys produced
by the parser are distinct, see `objInsert`). -/
def objGet (kvs : List (String × Json)) (k : String) : Option Json :=
  match kvs with
  | [] => none
  | (k2, v) :: r => if k2 = k then some v else objGet r k

/-- Python dict assignment `d[k] = v`: replaces the value of an existing key
in place, else appends, preserving insertion order. -/
def objInsert (kvs : List (String × Json)) (k : String) (v : Json) :
    List (String × Json) :=
  match kvs with
  | [] => [(k, v)]
  | (k2, v2) :: r => if k2 = k then (k2, v) :: r else (k2, v2) :: objInsert r k v

/-- Python truthiness of a float given its JSON lexeme: nonzero mantissa
digits before any exponent, or the constants NaN and Infinity. -/
def numTruthy (raw : String) : Bool :=
  (raw.data.takeWhile (fun c => c ≠ 'e' && c ≠ 'E')).any
    (fun c => ('1' ≤ c && c ≤ '9') || c = 'N' || c = 'I')

/-- Python truthiness `bool(v)` of a parsed JSON value. -/
def jsonTruthy : Json → Bool
  | .null => false
  | .bool b => b
  | .num raw => numTruthy raw
  | .str s => !s.isEmpty
  | .arr xs => !xs.isEmpty
  | .obj kvs => !kvs.isEmpty

/-- Python equality `v == t` between a parsed JSON value and a string. -/
def pyEqStr (j : Json) (t : String) : Bool :=
  match j with
  | .str s => s == t
  | _ => false

/-! ### The JSON number token

Python's `json` matches numbers with the regex
`(-?(?:0|[1-9]\d*))(\.\d+)?([eE][-+]?\d+)?` at the current position
(maximal munch, groups optional), and recognizes the constants
`NaN`, `Infinity` and `-Infinity` by literal prefix. -/

def takeDigits (l : List Char) : List Char × List Char :=
  (l.takeWhile Char.isDigit, l.dropWhile Char.isDigit)

/-- Exponent group `([eE][-+]?\d+)?`: consumed only when at least one digit
follows, otherwise left in place. -/
def expGroup (l : List Char) : List Char × List Char :=
  match l with
  | c :: r =>
    if c = 'e' || c = 'E' then
      match r with
      | s :: r2 =>
        if s = '+' || s = '-' then
          let p := takeDigits r2
          if p.1.isEmpty then ([], l) else (c :: s :: p.1, p.2)
        else
          let p := takeDigits r
          if p.1.isEmpty then ([], l) else (c :: p.1, p.2)
      | [] => ([], l)
    else ([], l)
  | [] => ([], l)

/-- Fraction group `(\.\d+)?`: consumed only when a digit follows the
point, otherwise left in place. -/
def fracGroup (l : List Char) : List Char × List Char :=
  match l with
  | c2 :: r2 =>
    if c2 = '.' then
      let p := takeDigits r2
      if p.1.isEmpty then (([] : List Char), l) else ('.' :: p.1, p.2)
    else ([], l)
  | [] => ([], l)

/-- Unsigned number body `(0|[1-9]\d*)(\.\d+)?([eE][-+]?\d+)?`. -/
def numBody (l : List Char) : Option (List Char × List Char) :=
  match l with
  | c :: r =>
    if c.isDigit then
      let ip := if c = '0' then (([] : List Char), r) else takeDigits r
      let fp := fracGroup ip.2
      let ep := expGroup fp.2
      some (c :: ip.1 ++ fp.1 ++ ep.1, ep.2)
    else none
  | [] => none

/-- Maximal-munch number token at the head of `l`, including the json-module
constants. -/
def parseNumTok (l : List Char) : Option (List Char × List Char) :=
  if startsWithL "NaN".data l then some ("NaN".data, l.drop 3)
  else if startsWithL "Infinity".data l then some ("Infinity".data, l.drop 8)
  else if startsWithL "-Infinity".data l then some ("-Infinity".data, l.drop 9)
  else
    match l with
    | c :: r => if c = '-' then (numBody r).map (fun p => ('-' :: p.1, p.2)) else numBody l
    | [] => none

/-- A lexeme is a complete, valid JSON number token. -/
def numOk (s : String) : Bool :=
  match parseNumTok s.data with
  | some (_, []) => true
  | _ => false

example : numOk "-0.5e+10" = true := by decide
example : numOk "01" = false := by decide
example : numOk "1." = false := by decide
example : numOk "NaN" = true := by decide

/-! ### Serialization: Python `json.dumps` with its defaults

Defaults: `ensure_ascii=True` (every code point ≥ U+007F becomes a `\uXXXX`
escape, lowercase hex, astral characters as a surrogate pair), separators
`", "` and `": "`. -/

def hexDigChar (n : Nat) : Char :=
  if n < 10 then Char.ofNat (48 + n) else Char.ofNat (87 + n)

def hex4 (n : Nat) : List Char :=
  [hexDigChar (n / 4096 % 16), hexDigChar (n / 256 % 16),
   hexDigChar (n / 16 % 16), hexDigChar (n % 16)]

def uEsc (n : Nat) : List Char :=
  '\\' :: 'u' :: hex4 n

/-- Encoding of one character inside a dumped JSON string. -/
def escChar (c : Char) : List Char :=
  if c = '\"' then ['\\', '\"']
  else if c = '\\' then ['\\', '\\']
  else if c = '\n' then ['\\', 'n']
  else if c = '\r' then ['\\', 'r']
  else if c = '\t' then ['\\', 't']
  else if c = Char.ofNat 8 then ['\\', 'b']
  else if c = Char.ofNat 12 then ['\\', 'f']
  else if c.toNat < 32 then uEsc c.toNat
  else if c.toNat < 127 then [c]
  else if c.toNat < 65536 then uEsc c.toNat
  else uEsc (55296 + (c.toNat - 65536) / 1024) ++ uEsc (56320 + (c.toNat - 65536) % 1024)

def escList : List Char → List Char
  | [] => []
  | c :: r => escChar c ++ escList r

def jdumpStr (s : String) : List Char :=
  '\"' :: escList s.data ++ ['\"']

mutual

def jdumpV : Json → List Char
  | .null => "null".data
  | .bool b => if b then "true".data else "false".data
  | .num raw => raw.data
  | .str s => jdumpStr s
  | .arr [] => ['[', ']']
  | .arr (y :: ys) => '[' :: (jdumpV y ++ jdumpArrTail ys)
  | .obj [] => [lbrace, rbrace]
  | .obj ((k, v) :: r) =>
    lbrace :: (jdumpStr k ++ ':' :: ' ' :: (jdumpV v ++ jdumpObjTail r))

def jdumpArrTail : List Json → List Char
  | [] => [']']
  | y :: ys => ',' :: ' ' :: (jdumpV y ++ jdumpArrTail ys)

def jdumpObjTail : List (String × Json) → List Char
  | [] => [rbrace]
  | (k, v) :: r => ',' :: ' ' :: (jdumpStr k ++ ':' :: ' ' :: (jdumpV v ++ jdumpObjTail r))

end

/-- Python `json.dumps(v)` as a string. -/
def jdumpS (v : Json) : String :=
  String.mk (jdumpV v)

example : jdumpS (.arr [.num "1", .obj [("a", .str "b")]]) =
    "[1, \x7b\"a\": \"b\"\x7d]" := by decide

/-! ### Well-formed values

Values as produced by the parser: number lexemes are valid tokens and object
keys are pairwise distinct.  The serialization of a well-formed value parses
back to the same value (proved below). -/

def keyFree (k : String) : List (String × Json) → Bool
  | [] => true
  | (k2, _) :: r => k2 != k && keyFree k r

def keysNodup : List (String × Json) → Bool
  | [] => true
  | (k, _) :: r => keyFree k r && keysNodup r

mutual

def jsonWF : Json → Bool
  | .null => true
  | .bool _ => true
  | .str _ => true
  | .num raw => numOk raw
  | .arr xs => jsonWFA xs
  | .obj kvs => keysNodup kvs && jsonWFO kvs

def jsonWFA : List Json → Bool
  | [] => true
  | y :: ys => jsonWF y && jsonWFA ys

def jsonWFO : List (String × Json) → Bool
  | [] => true
  | (_, v) :: r => jsonWF v && jsonWFO r

end

/-! ### Parsing: Python `json.loads`

A recursive-descent parser with the grammar and defaults of the CPython
json module: JSON whitespace `[ \t\n\r]`, `strict=True` (no raw control
characters inside strings), `NaN`/`Infinity`/`-Infinity` accepted, last
binding wins on duplicate object keys (via `objInsert`), trailing data
rejected.  The recursion is fuelled; every nested call strictly consumes
input first, so fuel `length + 1` can never be the cause of a failure
(invariant: each function is entered with fuel greater than the length of
its remaining input).

One deviation forced by Lean's `Char` (which excludes surrogate code
points): an unpaired `\uXXXX` surrogate escape, which Python keeps as a
lone surrogate character, is decoded to U+FFFD.  No claim's input contains
lone surrogates. -/

def skipJWs (l : List Char) : List Char :=
  l.dropWhile (fun c => c = ' ' || c = '\t' || c = '\n' || c = '\r')

def parseHexDig (c : Char) : Option Nat :=
  if '0' ≤ c && c ≤ '9' then some (c.toNat - 48)
  else if 'a' ≤ c && c ≤ 'f' then some (c.toNat - 87)
  else if 'A' ≤ c && c ≤ 'F' then some (c.toNat - 55)
  else none

/-- String-body scanner (after the opening quote).  One unit of fuel is
spent per decoded character, so fuel `length + 1` is always sufficient. -/
def parseStrAux : Nat → List Char → List Char → Option (String × List Char)
  | 0, _, _ => none
  | _ + 1, _, [] => none
  | f + 1, acc, c :: r =>
    if c = '\"' then some (String.mk acc.reverse, r)
    else if c = '\\' then
      match r with
      | [] => none
      | e :: r2 =>
        if e = 'u' then
          match r2 with
          | h1 :: h2 :: h3 :: h4 :: r3 =>
            match parseHexDig h1, parseHexDig h2, parseHexDig h3, parseHexDig h4 with
            | some a, some b, some c2, some d =>
              let n := a * 4096 + b * 256 + c2 * 16 + d
              if 55296 ≤ n && n ≤ 56319 then
                match r3 with
                | b1 :: u1 :: r4 =>
                  if b1 = '\\' && u1 = 'u' then
                    match r4 with
                    | k1 :: k2 :: k3 :: k4 :: r5 =>
                      match parseHexDig k1, parseHexDig k2, parseHexDig k3, parseHexDig k4 with
                      | some a2, some b2, some c3, some d2 =>
                        let m := a2 * 4096 + b2 * 256 + c3 * 16 + d2
                        if 56320 ≤ m && m ≤ 57343 then
                          parseStrAux f
                            (Char.ofNat (65536 + (n - 55296) * 1024 + (m - 56320)) :: acc) r5
                        else parseStrAux f (Char.ofNat 65533 :: acc) r3
                      | _, _, _, _ => none
                    | _ => none
                  else parseStrAux f (Char.ofNat 65533 :: acc) r3
                | _ => parseStrAux f (Char.ofNat 65533 :: acc) r3
              else if 56320 ≤ n && n ≤ 57343 then
                parseStrAux f (Char.ofNat 65533 :: acc) r3
              else parseStrAux f (Char.ofNat n :: acc) r3
            | _, _, _, _ => none
          | _ => none
        else if e = '\"' then parseStrAux f ('\"' :: acc) r2
        else if e = '\\' then parseStrAux f ('\\' :: acc) r2
        else if e = '/' then parseStrAux f ('/' :: acc) r2
        else if e = 'b' then parseStrAux f (Char.ofNat 8 :: acc) r2
        else if e = 'f' then parseStrAux f (Char.ofNat 12 :: acc) r2
        else if e = 'n' then parseStrAux f ('\n' :: acc) r2
        else if e = 'r' then parseStrAux f ('\r' :: acc) r2
        else if e = 't' then parseStrAux f ('\t' :: acc) r2
        else none
    else if c.toNat < 32 then none
    else parseStrAux f (c :: acc) r

/-- The continuation of `parseStrAux` after the four hex digits of a `\u`
escape have been decoded to the code unit `n` (literally the corresponding
sub-expression of `parseStrAux`, named so that proofs about one escape stay
small). -/
def uCont (f : Nat) (acc : List Char) (n : Nat) (r3 : List Char) :
    Option (String × List Char) :=
  if 55296 ≤ n && n ≤ 56319 then
    match r3 with
    | b1 :: u1 :: r4 =>
      if b1 = '\\' && u1 = 'u' then
        match r4 with
        | k1 :: k2 :: k3 :: k4 :: r5 =>
          match parseHexDig k1, parseHexDig k2, parseHexDig k3, parseHexDig k4 with
          | some a2, some b2, some c3, some d2 =>
            let m := a2 * 4096 + b2 * 256 + c3 * 16 + d2
            if 56320 ≤ m && m ≤ 57343 then
              parseStrAux f
                (Char.ofNat (65536 + (n - 55296) * 1024 + (m - 56320)) :: acc) r5
            else parseStrAux f (Char.ofNat 65533 :: acc) r3
          | _, _, _, _ => none
        | _ => none
      else parseStrAux f (Char.ofNat 65533 :: acc) r3
    | _ => parseStrAux f (Char.ofNat 65533 :: acc) r3
  else if 56320 ≤ n && n ≤ 57343 then
    parseStrAux f (Char.ofNat 65533 :: acc) r3
  else parseStrAux f (Char.ofNat n :: acc) r3

mutual

def parseVal : Nat → List Char → Option (Json × List Char)
  | 0, _ => none
  | f + 1, l =>
    match l with
    | [] => none
    | c :: r =>
      if c = '\"' then (parseStrAux (r.length + 1) [] r).map (fun p => (Json.str p.1, p.2))
      else if c = lbrace then
        match skipJWs r with
        | [] => none
        | d :: r1 =>
          if d = rbrace then some (Json.obj [], r1)
          else if d = '\"' then
            match parseStrAux (r1.length + 1) [] r1 with
            | none => none
            | some (k, r2) =>
              match skipJWs r2 with
              | c2 :: r3 =>
                if c2 = ':' then
                  match parseVal f (skipJWs r3) with
                  | none => none
                  | some (v, r4) => objRest f (objInsert [] k v) r4
                else none
              | [] => none
          else none
      else if c = '[' then
        match skipJWs r with
        | [] => none
        | d :: r1 =>
          if d = ']' then some (Json.arr [], r1)
          else
            match parseVal f (d :: r1) with
            | none => none
            | some (v, r2) =>
              match arrRest f r2 with
              | none => none
              | some (vs, r3) => some (Json.arr (v :: vs), r3)
      else if startsWithL "true".data l then some (Json.bool true, l.drop 4)
      else if startsWithL "false".data l then some (Json.bool false, l.drop 5)
      else if startsWithL "null".data l then some (Json.null, l.drop 4)
      else
        match parseNumTok l with
        | some (tok, rest) => some (Json.num (String.mk tok), rest)
        | none => none

def arrRest : Nat → List Char → Option (List Json × List Char)
  | f, l =>
    match skipJWs l with
    | [] => none
    | c :: r =>
      if c = ']' then some ([], r)
      else if c = ',' then
        match f with
        | 0 => none
        | g + 1 =>
          match parseVal g (skipJWs r) with
          | none => none
          | some (v, r2) =>
            match arrRest g r2 with
            | none => none
            | some (vs, r3) => some (v :: vs, r3)
      else none

def objRest : Nat → List (String × Json) → List Char → Option (Json × List Char)
  | f, acc, l =>
    match skipJWs l with
    | [] => none
    | c :: r =>
      if c = rbrace then some (Json.obj acc, r)
      else if c = ',' then
        match f with
        | 0 => none
        | g + 1 =>
          match skipJWs r with
          | [] => none
          | d :: r1 =>
            if d = '\"' then
              match parseStrAux (r1.length + 1) [] r1 with
              | none => none
              | some (k, r2) =>
                match skipJWs r2 with
                | c3 :: r3 =>
                  if c3 = ':' then
                    match parseVal g (skipJWs r3) with
                    | none => none
                    | some (v, r4) => objRest g (objInsert acc k v) r4
                  else none
                | [] => none
            else none
      else none

end

/-- Python `json.loads`: skip leading whitespace, parse one value, require
only whitespace after it.  Returns `none` where Python raises
`json.JSONDecodeError`. -/
def jsonLoads (s : String) : Option Json :=
  let l := skipJWs s.data
  match parseVal (l.length + 1) l with
  | some (v, rest) => if (skipJWs rest).isEmpty then some v else none
  | none => none

example : jsonLoads " [1, \x7b\"a\": \"b\\n\"\x7d, true] " =
    some (.arr [.num "1", .obj [("a", .str "b\n")], .bool true]) := rfl
example : jsonLoads "not json at all" = none := rfl
example : jsonLoads "[1,]" = none := rfl
example : jsonLoads "\x7b\"a\": 1, \"a\": 2\x7d" = some (.obj [("a", .num "2")]) := rfl
example : jsonLoads "[\"a\\u0060b\"]" = some (.arr [.str "a`b"]) := rfl
example : jsonLoads (jdumpS (.str "x\n\\π😀")) = some (.str "x\n\\π😀") := rfl

/-! ### Cleaning the model response

In `app.py`, `clean_gemini_response` is
`re.sub(r'```json\s*|```\s*', '', response_text.strip()).strip()`;
in `recommender.py` it is
`re.sub("```json\n|\n```|```", "", response_text.strip())`.
Both substitutions scan left to right, trying the alternatives in order at
each position; a match (always at least three characters) is removed and
scanning resumes after it. -/

def subAppScan : Nat → List Char → List Char
  | 0, l => l
  | f + 1, l =>
    if startsWithL "```json".data l then
      subAppScan f ((l.drop 7).dropWhile pyWs)
    else if startsWithL "```".data l then
      subAppScan f ((l.drop 3).dropWhile pyWs)
    else
      match l with
      | [] => []
      | c :: t => c :: subAppScan f t

def cleanApp (s : String) : String :=
  let t := stripL s.data
  String.mk (stripL (subAppScan (t.length + 1) t))

def subRecScan : Nat → List Char → List Char
  | 0, l => l
  | f + 1, l =>
    if startsWithL "```json\n".data l then subRecScan f (l.drop 8)
    else if startsWithL "\n```".data l then subRecScan f (l.drop 4)
    else if startsWithL "```".data l then subRecScan f (l.drop 3)
    else
      match l with
      | [] => []
      | c :: t => c :: subRecScan f t

def cleanRec (s : String) : String :=
  let t := stripL s.data
  String.mk (subRecScan (t.length + 1) t)

example : cleanApp "```json\n[1]\n```" = "[1]" := by decide
example : cleanRec "```json\n[1]\n```" = "[1]" := by decide
example : cleanApp "a```b" = "ab" := by decide

/-! ### The regex fallback

Both revisions, on a `json.JSONDecodeError`, run
`re.search(r'\[\s*\{.*?\}\s*\]', cleaned_response, re.DOTALL)` and parse
`match.group(0)`.  `re.search` returns the leftmost match; the lazy `.*?`
makes it the shortest completion from that start; the greedy `\s*` runs are
forced, as no whitespace character equals `{`, `}` or `]`. -/

/-- Scan for the earliest completion `\}\s*\]` of the island pattern;
returns the number of characters up to and including the closing bracket. -/
def findClose : List Char → Option Nat
  | [] => none
  | c :: t =>
    if c = rbrace then
      let w := (t.takeWhile pyWs).length
      match (t.drop w).head? with
      | some d => if d = ']' then some (w + 2) else (findClose t).map (· + 1)
      | none => (findClose t).map (· + 1)
    else (findClose t).map (· + 1)

/-- Length of the island-pattern match starting exactly here, if any. -/
def islandAt (l : List Char) : Option Nat :=
  match l with
  | [] => none
  | c :: t =>
    if c = '[' then
      let w := (t.takeWhile pyWs).length
      match t.drop w with
      | d :: u => if d = lbrace then (findClose u).map (fun m => 2 + w + m) else none
      | [] => none
    else none

def islandSearch : List Char → Option (List Char)
  | [] => none
  | l@(_ :: t) =>
    match islandAt l with
    | some n => some (l.take n)
    | none => islandSearch t

def searchIslandS (s : String) : Option String :=
  (islandSearch s.data).map String.mk

example : searchIslandS "xx [ \x7b\"a\": 1\x7d ] yy" = some "[ \x7b\"a\": 1\x7d ]" := rfl
example : searchIslandS "not json at all" = none := rfl

/-! ### Recommendation extraction: `get_gemini_recommendations`

The part of `get_gemini_recommendations` downstream of the model call, in
both revisions, as a function of the reference title and the raw response
text.  User-visible error reports (`st.error` in `app.py`, `print` in
`recommender.py`) are modelled as message tags.  `app.py` catches every
exception (`except Exception`) and so never raises; in `recommender.py`
only `json.JSONDecodeError` is caught, so the `AttributeError` raised by
`rec.get("link", "").startswith` on a non-string link propagates — its
model returns `Except.error`. -/

inductive Msg where
  | parseError
  | formatError
  | genError
  | emptyResponse
  deriving DecidableEq, Repr

/-- The validity test shared by both list comprehensions:
`isinstance(rec, dict) and rec.get("title") and
rec.get("link", "").startswith("http") and rec["title"] != article_title`,
with Python's left-to-right short-circuit evaluation.  `Except.error`
models the `AttributeError` from `.startswith` on a non-string link. -/
def filterCond (t : String) (r : Json) : Except Unit Bool :=
  match r with
  | .obj kvs =>
    let tv := objGet kvs "title"
    if !(match tv with | some v => jsonTruthy v | none => false) then .ok false
    else
      match (objGet kvs "link").getD (Json.str "") with
      | .str s =>
        if !(strStarts s "http") then .ok false
        else .ok (!(pyEqStr (tv.getD Json.null) t))
      | _ => .error ()
  | _ => .ok false

/-- Projection `{"title": rec["title"], "link": rec["link"]}` applied by
`app.py` to each kept element (both keys are present whenever the test
passed; the `Json.null` defaults are unreachable). -/
def appProj (r : Json) : Json :=
  match r with
  | .obj kvs =>
    Json.obj [("title", (objGet kvs "title").getD Json.null),
              ("link", (objGet kvs "link").getD Json.null)]
  | _ => r

def appFilterList (t : String) : List Json → Except Unit (List Json)
  | [] => .ok []
  | r :: rs =>
    match filterCond t r with
    | .error e => .error e
    | .ok true =>
      match appFilterList t rs with
      | .error e => .error e
      | .ok l => .ok (appProj r :: l)
    | .ok false => appFilterList t rs

def recFilterList (t : String) : List Json → Except Unit (List Json)
  | [] => .ok []
  | r :: rs =>
    match filterCond t r with
    | .error e => .error e
    | .ok true =>
      match recFilterList t rs with
      | .error e => .error e
      | .ok l => .ok (r :: l)
    | .ok false => recFilterList t rs

/-- Extraction of `app.py` (`get_gemini_recommendations`, lines 299–338),
given the reference article title and the raw model text.  Returns the
recommendation list together with the error messages shown.  The island
fragment always starts with `[`, so a successful re-parse of it can only
be an array; the non-array fallback case is unreachable. -/
def appGetRecs (articleTitle raw : String) : List Json × List Msg :=
  let cleaned := cleanApp raw
  match jsonLoads cleaned with
  | some (Json.arr recs) =>
    match appFilterList articleTitle recs with
    | .ok valid => (valid, [])
    | .error _ => ([], [Msg.genError])
  | some _ => ([], [Msg.formatError])
  | none =>
    match searchIslandS cleaned with
    | some frag =>
      match jsonLoads frag with
      | some (Json.arr l) => (l, [Msg.parseError])
      | _ => ([], [Msg.parseError])
    | none => ([], [Msg.parseError])

/-- Extraction of `recommender.py` (`get_gemini_recommendations`,
lines 221–256): empty-response guard, then parse, filter, and truncate to
five; the regex fallback is unfiltered and untruncated. -/
def recGetRecs (articleTitle raw : String) : Except Unit (List Json × List Msg) :=
  if (pyStrip raw).isEmpty then .ok ([], [Msg.emptyResponse])
  else
    let cleaned := cleanRec raw
    match jsonLoads cleaned with
    | some (Json.arr recs) =>
      match recFilterList articleTitle recs with
      | .ok valid => .ok (valid.take 5, [])
      | .error e => .error e
    | some _ => .ok ([], [Msg.formatError])
    | none =>
      match searchIslandS cleaned with
      | some frag =>
        match jsonLoads frag with
        | some (Json.arr l) => .ok (l, [Msg.parseError])
        | _ => .ok ([], [Msg.parseError])
      | none => .ok ([], [Msg.parseError])

example :
    appGetRecs "A" "[\x7b\"title\": \"B\", \"link\": \"http://b\"\x7d]" =
      ([Json.obj [("title", Json.str "B"), ("link", Json.str "http://b")]], []) := rfl

example :
    appGetRecs "A" "not json at all" = ([], [Msg.parseError]) := rfl

example :
    recGetRecs "A" "[\x7b\"title\": \"A\", \"link\": \"http://a\"\x7d]" = .ok ([], []) := rfl

/-! ### Feed ingestion

Network access and `BeautifulSoup(...).get_text(...)` are external: the
per-feed `feedparser.parse` outcomes and the HTML-stripping function are
passed in as data.  An `Entry` carries the optional fields the code reads;
`FeedFetch.raises` models an exception from a feed fetch (caught in both
revisions). -/

structure Article where
  title : String
  content : String
  link : String
  source : String
  deriving DecidableEq, Repr

structure Entry where
  title? : Option String
  summary? : Option String
  link? : Option String
  deriving Repr

structure FeedData where
  ftitle : Option String
  entries : List Entry
  bozo : Bool
  deriving Repr

inductive FeedFetch where
  | raises
  | parsed (d : FeedData)
  deriving Repr

/-- The success test of `app.py`:
`if feed.entries and not feed.get('bozo_exception')`. -/
def feedOk : FeedFetch → Bool
  | .raises => false
  | .parsed d => !d.entries.isEmpty && !d.bozo

/-- One article of `app.py`'s `fetch_news`: title via
`entry.get('title', '').strip()`, content via the HTML cleaner, link via
`entry.get('link', '')`, source via `feed.feed.get('title', 'Unknown Source')`
(passed in as `src`). -/
def mkAppArticle (clean : String → String) (src : String) (e : Entry) : Article :=
  { title := pyStrip (e.title?.getD "")
    content := clean (e.summary?.getD "")
    link := e.link?.getD ""
    source := src }

/-- The primary loop of `fetch_news`: for each successful feed, the first
ten entries become articles; failed feeds are only counted. -/
def appPrimary (clean : String → String) : List FeedFetch → List Article
  | [] => []
  | f :: r =>
    (match f with
     | .parsed d =>
       if !d.entries.isEmpty && !d.bozo then
         (d.entries.take 10).map (mkAppArticle clean (d.ftitle.getD "Unknown Source"))
       else []
     | .raises => []) ++ appPrimary clean r

/-- Pandas `drop_duplicates(subset=['title'])`: keep the first row with each
title. -/
def dedupSeen (seen : List String) : List Article → List Article
  | [] => []
  | a :: r =>
    if seen.contains a.title then dedupSeen seen r
    else a :: dedupSeen (a.title :: seen) r

def dedupTitles (l : List Article) : List Article :=
  dedupSeen [] l

/-- An article appended on the fallback path (source hard-coded to
"Google News"). -/
def mkFbArticle (clean : String → String) (e : Entry) : Article :=
  { title := pyStrip (e.title?.getD "")
    content := clean (e.summary?.getD "")
    link := e.link?.getD ""
    source := "Google News" }

structure FetchOut where
  df : List Article
  usedFallback : Bool
  deriving Repr

/-- The fallback URL built by `fetch_news` (line 214 of `app.py`):
`f"https://news.google.com/rss/search?q={category}+health&hl=en-US&gl=US&ceid=US:en"`. -/
def appFallbackUrl (category : String) : String :=
  "https://news.google.com/rss/search?q=" ++ category ++
    "+health&hl=en-US&gl=US&ceid=US:en"

/-- Model of `fetch_news` in `app.py` (lines 169–234): primary loop,
dedup by title, and — only when no source succeeded — a single fallback
fetch (first twenty entries, source "Google News"), deduped again.  A
fallback exception leaves the already-deduped (necessarily empty) frame. -/
def fetchNews (clean : String → String) (feeds : List FeedFetch)
    (fallback : FeedFetch) : FetchOut :=
  let articles := appPrimary clean feeds
  let success := feeds.any feedOk
  let df := dedupTitles articles
  if success then ⟨df, false⟩
  else
    match fallback with
    | .raises => ⟨df, true⟩
    | .parsed d =>
      ⟨dedupTitles (articles ++ (d.entries.take 20).map (mkFbArticle clean)), true⟩

/-- The per-entry body of `fetch_rss_articles` in `recommender.py`: it reads
`entry.title` and `entry.link` as attributes, so a missing one raises and
the whole feed returns `[]` (the loop's partial list is discarded).
The title is stored verbatim — no `.strip()` in this revision. -/
def entriesToArticles (clean : String → String) (src : String) :
    List Entry → Option (List Article)
  | [] => some []
  | e :: r =>
    match e.title?, e.link? with
    | some t, some lk =>
      (entriesToArticles clean src r).map
        (fun rest =>
          { title := t
            content := clean (e.summary?.getD "")
            link := lk
            source := src } :: rest)
    | _, _ => none

def fetchRssArticles (clean : String → String) : FeedFetch → List Article
  | .raises => []
  | .parsed d => (entriesToArticles clean (d.ftitle.getD "Unknown Source") d.entries).getD []

def allRss (clean : String → String) : List FeedFetch → List Article
  | [] => []
  | f :: r => fetchRssArticles clean f ++ allRss clean r

/-- Model of `fetch_all_news` in `recommender.py` (lines 146–158). -/
def fetchAllNews (clean : String → String) (feeds : List FeedFetch) : List Article :=
  dedupTitles (allRss clean feeds)

/-! ### Prompt building

The sampling step of `get_gemini_recommendations`:
`sample_size = min(cap, len(news_df))` and
`news_df.sample(n=sample_size) if len(news_df) > sample_size else news_df`,
with cap 30 in `app.py` and 25 in `recommender.py`.  The random sampler is
a parameter; row indexes are modelled as positions in the given frame. -/

def sampleStep (sampler : List Article → Nat → List Article)
    (df : List Article) (cap : Nat) : List Article :=
  let n := min cap df.length
  if df.length > n then sampler df n else df

def joinNN : List String → String
  | [] => ""
  | [x] => x
  | x :: xs => x ++ "\n\n" ++ joinNN xs

/-- Items of `app.py`:
`f"ID: {idx}\nTITLE: {row['title']}\nLINK: {row['link']}\nSOURCE: {row.get('source', 'Unknown')}"`. -/
def appItems : Nat → List Article → List String
  | _, [] => []
  | i, a :: r =>
    ("ID: " ++ toString i ++ "\nTITLE: " ++ a.title ++ "\nLINK: " ++ a.link ++
      "\nSOURCE: " ++ a.source) :: appItems (i + 1) r

/-- Items of `recommender.py`:
`f"ID: {idx}\nTITLE: {row['title']}\nLINK: {row['link']}"`. -/
def recItems : Nat → List Article → List String
  | _, [] => []
  | i, a :: r =>
    ("ID: " ++ toString i ++ "\nTITLE: " ++ a.title ++ "\nLINK: " ++ a.link)
      :: recItems (i + 1) r

def appT1 : String :=
  "\n    # SYSTEM: You are an expert news recommendation system that identifies relevant articles based on semantic similarity.\n\n    # TASK: Find 5 news articles most similar to the reference article below.\n\n    # REFERENCE ARTICLE:\n    TITLE: "

def appT2 : String := "\n    CONTENT: "

def appT3 : String := "\n\n    # AVAILABLE ARTICLES:\n    "

def promptTailCommon : String :=
  "\n\n    # OUTPUT FORMAT:\n    Return a JSON array containing exactly 5 article recommendations.\n    Each recommendation must have only these fields:\n    - \"title\": The exact title of the article as shown in AVAILABLE ARTICLES\n    - \"link\": The exact link of the article as shown in AVAILABLE ARTICLES\n\n    # OUTPUT CONSTRAINTS:\n    - Return ONLY raw JSON with no markdown formatting, explanation, or commentary\n    - The output must be a parseable JSON array of 5 objects\n    - Do not include the reference article in recommendations\n    - Ensure all links are complete URLs\n\n    # EXAMPLE OUTPUT:\n    [\n      \x7b\"title\": \"Example Article 1\", \"link\": \"https://example.com/1\"\x7d,\n      \x7b\"title\": \"Example Article 2\", \"link\": \"https://example.com/2\"\x7d,\n      \x7b\"title\": \"Example Article 3\", \"link\": \"https://example.com/3\"\x7d,\n      \x7b\"title\": \"Example Article 4\", \"link\": \"https://example.com/4\"\x7d,\n      \x7b\"title\": \"Example Article 5\", \"link\": \"https://example.com/5\"\x7d\n    ]\n    "

def appT4 : String :=
  "\n\n    # CRITERIA FOR SIMILARITY:\n    - Topic relevance (most important)\n    - Similar events or entities mentioned\n    - Similar perspectives or angles\n    - Content diversity (include different sources when possible)"
    ++ promptTailCommon

def recT4 : String :=
  "\n\n    # CRITERIA FOR SIMILARITY:\n    - Topic relevance (most important)\n    - Similar events or entities mentioned\n    - Complementary information that would interest the same reader"
    ++ promptTailCommon

/-- The recommendation prompt of `app.py` as a function of the already
sampled articles. -/
def appPromptOf (title content : String) (sample : List Article) : String :=
  appT1 ++ title ++ appT2 ++ content ++ appT3 ++ joinNN (appItems 0 sample) ++ appT4

/-- The full prompt-building step of `app.py` (sampling cap 30). -/
def appPrompt (sampler : List Article → Nat → List Article)
    (title content : String) (df : List Article) : String :=
  appPromptOf title content (sampleStep sampler df 30)

def recPromptOf (title content : String) (sample : List Article) : String :=
  appT1 ++ title ++ appT2 ++ content ++ appT3 ++ joinNN (recItems 0 sample) ++ recT4

/-- The full prompt-building step of `recommender.py` (sampling cap 25). -/
def recPrompt (sampler : List Article → Nat → List Article)
    (title content : String) (df : List Article) : String :=
  recPromptOf title content (sampleStep sampler df 25)

/-! ### The YouTube gateway

`urlencode({'search_query': query})` with its default `quote_via=quote_plus`:
spaces become `+`, ASCII alphanumerics and `_.-~` stay, every other
character is percent-encoded per UTF-8 byte with uppercase hex. -/

def pctHexDig (n : Nat) : Char :=
  if n < 10 then Char.ofNat (48 + n) else Char.ofNat (55 + n)

def utf8Bytes (c : Char) : List Nat :=
  let n := c.toNat
  if n < 128 then [n]
  else if n < 2048 then [192 + n / 64, 128 + n % 64]
  else if n < 65536 then [224 + n / 4096, 128 + n / 64 % 64, 128 + n % 64]
  else [240 + n / 262144, 128 + n / 4096 % 64, 128 + n / 64 % 64, 128 + n % 64]

def pctList : List Nat → List Char
  | [] => []
  | b :: r => '%' :: pctHexDig (b / 16) :: pctHexDig (b % 16) :: pctList r

def quotePlusChar (c : Char) : List Char :=
  if c = ' ' then ['+']
  else if ('a' ≤ c && c ≤ 'z') || ('A' ≤ c && c ≤ 'Z') || ('0' ≤ c && c ≤ '9')
      || c = '_' || c = '.' || c = '-' || c = '~' then [c]
  else pctList (utf8Bytes c)

def qpList : List Char → List Char
  | [] => []
  | c :: r => quotePlusChar c ++ qpList r

def pyQuotePlus (s : String) : String :=
  String.mk (qpList s.data)

def urlencode1 (key val : String) : String :=
  pyQuotePlus key ++ "=" ++ pyQuotePlus val

example : urlencode1 "search_query" "a b/c" = "search_query=a+b%2Fc" := by decide

structure Video where
  title : String
  description : String
  thumbnail : String
  videoId : Option String
  link : String
  deriving DecidableEq, Repr

def ytPlaceholderThumb : String :=
  "https://www.youtube.com/img/desktop/yt_1200.png"

/-- Python `not youtube_api_key`: true for `None` and for the empty
string. -/
def keyFalsy : Option String → Bool
  | none => true
  | some k => k.isEmpty

/-- Model of `fetch_youtube_videos` in `app.py` (lines 341–385).  The
authenticated branch performs network I/O and is passed in as `apiPath`;
the claims only concern the unauthenticated branch, which is synthesized
locally and never fails. -/
def fetchYoutubeVideos (apiPath : String → Nat → String → List Video)
    (query : String) (maxResults : Nat) (key : Option String) : List Video :=
  if keyFalsy key then
    [{ title := "Videos about: " ++ query
       description := "Search results on YouTube"
       thumbnail := ytPlaceholderThumb
       videoId := none
       link := "https://www.youtube.com/results?" ++ urlencode1 "search_query" query }]
  else apiPath query maxResults (key.getD "")

/-! ## Helper lemmas -/

theorem dropWhile_head_false {p : Char → Bool} :
    ∀ l : List Char, (∀ c, l.head? = some c → p c = false) → l.dropWhile p = l := by
  intro l h
  cases l with
  | nil => rfl
  | cons c t => simp [List.dropWhile_cons, h c rfl]

theorem stripL_noop {l : List Char}
    (h1 : ∀ c, l.head? = some c → pyWs c = false)
    (h2 : ∀ c, l.getLast? = some c → pyWs c = false) : stripL l = l := by
  unfold stripL
  rw [dropWhile_head_false l h1]
  rw [dropWhile_head_false l.reverse (by simpa using h2)]
  exact l.reverse_reverse

theorem head_dropWhile_false {p : Char → Bool} :
    ∀ l : List Char, ∀ c, (l.dropWhile p).head? = some c → p c = false := by
  intro l
  induction l with
  | nil => intro c h; simp at h
  | cons a t ih =>
    intro c h
    by_cases hp : p a
    · rw [List.dropWhile_cons_of_pos hp] at h
      exact ih c h
    · rw [List.dropWhile_cons_of_neg hp] at h
      simp at h
      subst h
      simpa using hp

theorem getLast_dropWhile {p : Char → Bool} :
    ∀ l : List Char, (l.dropWhile p) ≠ [] →
      (l.dropWhile p).getLast? = l.getLast? := by
  intro l
  induction l with
  | nil => intro h; simp at h
  | cons a t ih =>
    intro h
    by_cases hp : p a
    · rw [List.dropWhile_cons_of_pos hp] at h ⊢
      have ht : t ≠ [] := by
        intro he
        rw [he] at h
        simp at h
      obtain ⟨b, t2, rfl⟩ := List.exists_cons_of_ne_nil ht
      rw [ih h, List.getLast?_cons_cons]
    · rw [List.dropWhile_cons_of_neg hp]

theorem stripL_idem (l : List Char) : stripL (stripL l) = stripL l := by
  by_cases hy : stripL l = []
  · rw [hy]; rfl
  · apply stripL_noop
    · intro c hc
      unfold stripL at hc hy
      rw [List.head?_reverse] at hc
      rw [getLast_dropWhile _ (by simpa using hy)] at hc
      rw [List.getLast?_reverse] at hc
      exact head_dropWhile_false _ c hc
    · intro c hc
      unfold stripL at hc
      rw [List.getLast?_reverse] at hc
      exact head_dropWhile_false _ c hc

theorem pyStrip_idem (s : String) : pyStrip (pyStrip s) = pyStrip s := by
  unfold pyStrip
  rw [stripL_idem]

theorem strAssoc (a b c : String) : a ++ b ++ c = a ++ (b ++ c) := by
  rcases a with ⟨la⟩
  rcases b with ⟨lb⟩
  rcases c with ⟨lc⟩
  show String.mk (la ++ lb ++ lc) = String.mk (la ++ (lb ++ lc))
  rw [List.append_assoc]

/-! ### Deduplication lemmas -/

theorem dedup_find : ∀ (seen : List String) (l : List Article) (a : Article),
    a ∈ dedupSeen seen l →
      seen.contains a.title = false ∧
        l.find? (fun b => b.title == a.title) = some a := by
  intro seen l
  induction l generalizing seen with
  | nil => intro a h; simp [dedupSeen] at h
  | cons b r ih =>
    intro a h
    unfold dedupSeen at h
    by_cases hc : seen.contains b.title
    · rw [if_pos hc] at h
      obtain ⟨hna, hfind⟩ := ih seen a h
      have hne : (b.title == a.title) = false := by
        by_contra hx
        simp at hx
        rw [hx] at hc
        rw [hc] at hna
        simp at hna
      refine ⟨hna, ?_⟩
      rw [List.find?_cons, hne]
      exact hfind
    · rw [if_neg hc] at h
      rcases List.mem_cons.mp h with rfl | hmem
      · refine ⟨by simpa using hc, ?_⟩
        rw [List.find?_cons]
        simp
      · obtain ⟨hna, hfind⟩ := ih (b.title :: seen) a hmem
        rw [List.contains_cons] at hna
        simp at hna
        refine ⟨by simpa using hna.2, ?_⟩
        rw [List.find?_cons]
        have hne2 : (b.title == a.title) = false := by
          simp
          exact fun he => hna.1 he.symm
        rw [hne2]
        exact hfind

theorem mem_dedupSeen : ∀ (seen : List String) (l : List Article) (a : Article),
    a ∈ dedupSeen seen l → a ∈ l := by
  intro seen l
  induction l generalizing seen with
  | nil => intro a h; simp [dedupSeen] at h
  | cons b r ih =>
    intro a h
    unfold dedupSeen at h
    by_cases hc : seen.contains b.title
    · rw [if_pos hc] at h
      exact List.mem_cons_of_mem b (ih seen a h)
    · rw [if_neg hc] at h
      rcases List.mem_cons.mp h with rfl | hmem
      · exact List.mem_cons_self a r
      · exact List.mem_cons_of_mem b (ih _ a hmem)

theorem dedup_pairwise : ∀ (seen : List String) (l : List Article),
    (dedupSeen seen l).Pairwise (fun a b => a.title ≠ b.title) := by
  intro seen l
  induction l generalizing seen with
  | nil => simp [dedupSeen]
  | cons b r ih =>
    unfold dedupSeen
    by_cases hc : seen.contains b.title
    · rw [if_pos hc]; exact ih seen
    · rw [if_neg hc]
      refine List.Pairwise.cons ?_ (ih (b.title :: seen))
      intro a ha
      obtain ⟨hna, _⟩ := dedup_find (b.title :: seen) r a ha
      rw [List.contains_cons] at hna
      simp at hna
      exact fun he => hna.1 he.symm

theorem dedup_cover : ∀ (seen : List String) (l : List Article) (b : Article),
    b ∈ l →
      seen.contains b.title = true ∨ ∃ a ∈ dedupSeen seen l, a.title = b.title := by
  intro seen l
  induction l generalizing seen with
  | nil => intro b h; simp at h
  | cons x r ih =>
    intro b h
    unfold dedupSeen
    by_cases hc : seen.contains x.title
    · rw [if_pos hc]
      rcases List.mem_cons.mp h with rfl | hmem
      · exact Or.inl hc
      · exact ih seen b hmem
    · rw [if_neg hc]
      rcases List.mem_cons.mp h with rfl | hmem
      · exact Or.inr ⟨b, List.mem_cons_self _ _, rfl⟩
      · rcases ih (x.title :: seen) b hmem with hseen | ⟨a, ha, hti⟩
        · have hs2 : b.title = x.title ∨ b.title ∈ seen := by simpa using hseen
          rcases hs2 with heq | hs
          · exact Or.inr ⟨x, List.mem_cons_self _ _, heq.symm⟩
          · exact Or.inl (by simpa using hs)
        · exact Or.inr ⟨a, List.mem_cons_of_mem x ha, hti⟩

/-! ### Unfolding lemmas for `fetchNews` -/

theorem fetchNews_success (clean : String → String) (feeds : List FeedFetch)
    (fb : FeedFetch) (h : feeds.any feedOk = true) :
    fetchNews clean feeds fb = ⟨dedupTitles (appPrimary clean feeds), false⟩ := by
  simp [fetchNews, h]

theorem fetchNews_fb_raises (clean : String → String) (feeds : List FeedFetch)
    (h : feeds.any feedOk = false) :
    fetchNews clean feeds .raises = ⟨dedupTitles (appPrimary clean feeds), true⟩ := by
  simp [fetchNews, h]

theorem fetchNews_fb_parsed (clean : String → String) (feeds : List FeedFetch)
    (d : FeedData) (h : feeds.any feedOk = false) :
    fetchNews clean feeds (.parsed d) =
      ⟨dedupTitles (appPrimary clean feeds ++ (d.entries.take 20).map (mkFbArticle clean)),
        true⟩ := by
  simp [fetchNews, h]

theorem appPrimary_shape (clean : String → String) :
    ∀ feeds : List FeedFetch, ∀ a ∈ appPrimary clean feeds,
      ∃ src e, a = mkAppArticle clean src e := by
  intro feeds
  induction feeds with
  | nil => intro a ha; simp [appPrimary] at ha
  | cons f r ih =>
    intro a ha
    unfold appPrimary at ha
    rcases List.mem_append.mp ha with hl | hr
    · cases f with
      | raises => simp at hl
      | parsed d =>
        have hl2 : a ∈ (if (!d.entries.isEmpty && !d.bozo) = true then
            List.map (mkAppArticle clean (d.ftitle.getD "Unknown Source"))
              (List.take 10 d.entries)
          else []) := hl
        by_cases hc : (!d.entries.isEmpty && !d.bozo) = true
        · rw [if_pos hc] at hl2
          obtain ⟨e, _, rfl⟩ := List.mem_map.mp hl2
          exact ⟨_, e, rfl⟩
        · rw [if_neg hc] at hl2
          simp at hl2
    · exact ih a hr

/-! ## Claim C10 -/

/-- C10: the corpus returned by `fetch_news` carries no two articles with
an identical title, unconditionally — on the primary path, on the fallback
path, and when the fallback itself raises. -/
theorem c10_dedup_unconditional (clean : String → String) (feeds : List FeedFetch)
    (fb : FeedFetch) :
    ((fetchNews clean feeds fb).df).Pairwise (fun a b => a.title ≠ b.title) := by
  by_cases h : feeds.any feedOk = true
  · rw [fetchNews_success clean feeds fb h]
    exact dedup_pairwise [] _
  · have h2 : feeds.any feedOk = false := by simpa using h
    cases fb with
    | raises =>
      rw [fetchNews_fb_raises clean feeds h2]
      exact dedup_pairwise [] _
    | parsed d =>
      rw [fetchNews_fb_parsed clean feeds d h2]
      exact dedup_pairwise [] _

/-! ## Claim C3 -/

/-- C3: with at least one successfully fetched feed, `fetch_news` returns
the title-deduplicated primary batch: titles are pairwise distinct, every
kept article is the first article of the raw entry stream bearing its
title, and every raw title is still represented.  The same three facts
hold for `fetch_all_news` of `recommender.py` over its concatenated feed
results. -/
theorem c3_dedup_keeps_first (clean : String → String) (feeds : List FeedFetch)
    (fb : FeedFetch) (clean2 : String → String) (feeds2 : List FeedFetch)
    (h : ∃ f ∈ feeds, feedOk f = true) :
    (((fetchNews clean feeds fb).df).Pairwise (fun a b => a.title ≠ b.title) ∧
      (∀ a ∈ (fetchNews clean feeds fb).df,
        (appPrimary clean feeds).find? (fun b => b.title == a.title) = some a) ∧
      (∀ b ∈ appPrimary clean feeds,
        ∃ a ∈ (fetchNews clean feeds fb).df, a.title = b.title)) ∧
    ((fetchAllNews clean2 feeds2).Pairwise (fun a b => a.title ≠ b.title) ∧
      (∀ a ∈ fetchAllNews clean2 feeds2,
        (allRss clean2 feeds2).find? (fun b => b.title == a.title) = some a) ∧
      (∀ b ∈ allRss clean2 feeds2,
        ∃ a ∈ fetchAllNews clean2 feeds2, a.title = b.title)) := by
  have hs : feeds.any feedOk = true := List.any_eq_true.mpr h
  rw [fetchNews_success clean feeds fb hs]
  refine ⟨⟨dedup_pairwise [] _, ?_, ?_⟩, dedup_pairwise [] _, ?_, ?_⟩
  · intro a ha
    exact (dedup_find [] _ a ha).2
  · intro b hb
    rcases dedup_cover [] _ b hb with hc | hk
    · simp at hc
    · exact hk
  · intro a ha
    exact (dedup_find [] _ a ha).2
  · intro b hb
    rcases dedup_cover [] _ b hb with hc | hk
    · simp at hc
    · exact hk

def w3feeds : List FeedFetch :=
  [.parsed ⟨some "SrcA", [⟨some "T1", none, some "L1"⟩, ⟨some " T1", some "<p>x</p>", some "L2"⟩,
      ⟨some "T2", none, some "L3"⟩], false⟩,
   .raises]

def w3feeds2 : List FeedFetch :=
  [.parsed ⟨some "SrcB", [⟨some "U1", none, some "M1"⟩, ⟨some "U1", none, some "M2"⟩], false⟩]

theorem c3_dedup_keeps_first_witness :
    (∃ f ∈ w3feeds, feedOk f = true) ∧
    ((fetchNews id w3feeds .raises).df).Pairwise (fun a b => a.title ≠ b.title) ∧
    (appPrimary id w3feeds).find?
        (fun b => b.title == (Article.mk "T1" "" "L1" "SrcA").title) =
      some (Article.mk "T1" "" "L1" "SrcA") ∧
    (fetchAllNews id w3feeds2).Pairwise (fun a b => a.title ≠ b.title) := by
  refine ⟨by decide, ?_, ?_, ?_⟩
  · exact (c3_dedup_keeps_first id w3feeds .raises id w3feeds2 (by decide)).1.1
  · exact (c3_dedup_keeps_first id w3feeds .raises id w3feeds2 (by decide)).1.2.1
      (Article.mk "T1" "" "L1" "SrcA") (by decide)
  · exact (c3_dedup_keeps_first id w3feeds .raises id w3feeds2 (by decide)).2.1

/-! ## Claim C9 -/

/-- C9 (amended): every article produced by `fetch_news` in `app.py` has a
title equal to its own whitespace-trimmed form, on the primary and fallback
paths alike.  (Non-emptiness does not hold — a feed entry with a missing or
all-whitespace title yields an empty stored title — and `recommender.py`
stores titles verbatim without trimming; see the counterexample.) -/
theorem c9_titles_trimmed (clean : String → String) (feeds : List FeedFetch)
    (fb : FeedFetch) (a : Article) (ha : a ∈ (fetchNews clean feeds fb).df) :
    a.title = pyStrip a.title := by
  have hprim : ∀ b ∈ appPrimary clean feeds, b.title = pyStrip b.title := by
    intro b hb
    obtain ⟨src, e, rfl⟩ := appPrimary_shape clean feeds b hb
    exact (pyStrip_idem _).symm
  by_cases h : feeds.any feedOk = true
  · rw [fetchNews_success clean feeds fb h] at ha
    exact hprim a (mem_dedupSeen [] _ a ha)
  · have h2 : feeds.any feedOk = false := by simpa using h
    cases fb with
    | raises =>
      rw [fetchNews_fb_raises clean feeds h2] at ha
      exact hprim a (mem_dedupSeen [] _ a ha)
    | parsed d =>
      rw [fetchNews_fb_parsed clean feeds d h2] at ha
      have ha2 := mem_dedupSeen [] _ a ha
      rcases List.mem_append.mp ha2 with hl | hr
      · exact hprim a hl
      · obtain ⟨e, _, rfl⟩ := List.mem_map.mp hr
        exact (pyStrip_idem _).symm

theorem c9_titles_trimmed_witness :
    (Article.mk "pad" "" "L" "SrcA").title = pyStrip (Article.mk "pad" "" "L" "SrcA").title :=
  c9_titles_trimmed id [.parsed ⟨some "SrcA", [⟨some " pad ", none, some "L"⟩], false⟩]
    .raises (Article.mk "pad" "" "L" "SrcA") (by decide)

/-- C9 counterexample: the claim as stated is false on both revisions.  In
`app.py`, an entry with no title field is stored with the empty title (the
corpus below contains an article whose title is `""`, refuting
non-emptiness); in `recommender.py`, `fetch_rss_articles` stores
`entry.title` verbatim, so the title `" padded "` is kept untrimmed,
refuting trimmedness. -/
theorem c9_counterexample :
    ((fetchNews id [.parsed ⟨some "S", [⟨none, none, some "L"⟩], false⟩] .raises).df.map
        (fun a => a.title) = [""]) ∧
    ((fetchRssArticles id (.parsed ⟨some "S", [⟨some " padded ", none, some "L"⟩], false⟩)).map
        (fun a => a.title) = [" padded "]) ∧
    " padded " ≠ pyStrip " padded " := by
  refine ⟨rfl, rfl, by decide⟩

/-! ## Claim C7 -/

/-- C7: the fallback path of `fetch_news` is taken exactly when no source
succeeded, and the single secondary query URL appends the literal
`+health` to the category, so its query is `Sports+health` for category
`Sports` — not the bare category name the claim (and the spec) state. -/
theorem c7_fallback_iff_and_query (clean : String → String) (feeds : List FeedFetch)
    (fb : FeedFetch) :
    ((fetchNews clean feeds fb).usedFallback = true ↔ ¬ ∃ f ∈ feeds, feedOk f = true) ∧
    appFallbackUrl "Sports" =
      "https://news.google.com/rss/search?q=Sports+health&hl=en-US&gl=US&ceid=US:en" := by
  constructor
  · by_cases h : feeds.any feedOk = true
    · rw [fetchNews_success clean feeds fb h]
      simpa using List.any_eq_true.mp h
    · have h2 : feeds.any feedOk = false := by simpa using h
      have hne : ¬ ∃ f ∈ feeds, feedOk f = true := by
        intro hx
        rw [List.any_eq_true.mpr hx] at h2
        simp at h2
      cases fb with
      | raises => rw [fetchNews_fb_raises clean feeds h2]; simpa using hne
      | parsed d => rw [fetchNews_fb_parsed clean feeds d h2]; simpa using hne
  · rfl

/-! ## Claim C8 -/

/-- C8: with no API key configured (None or the empty string),
`fetch_youtube_videos` returns exactly one video record: the search link
for the keyword (the URL-encoded keyword appended to the results URL) and
the fixed placeholder thumbnail.  The branch is a total computation — it
cannot fail. -/
theorem c8_no_key_placeholder (apiPath : String → Nat → String → List Video)
    (query : String) (n : Nat) (key : Option String) (h : keyFalsy key = true) :
    fetchYoutubeVideos apiPath query n key =
      [{ title := "Videos about: " ++ query
         description := "Search results on YouTube"
         thumbnail := ytPlaceholderThumb
         videoId := none
         link := "https://www.youtube.com/results?search_query=" ++ pyQuotePlus query }] := by
  unfold fetchYoutubeVideos
  rw [if_pos h]
  rfl

theorem c8_no_key_placeholder_witness :
    keyFalsy none = true ∧
    fetchYoutubeVideos (fun _ _ _ => []) "election" 3 none =
      [{ title := "Videos about: election"
         description := "Search results on YouTube"
         thumbnail := ytPlaceholderThumb
         videoId := none
         link := "https://www.youtube.com/results?search_query=" ++ pyQuotePlus "election" }] :=
  ⟨rfl, c8_no_key_placeholder (fun _ _ _ => []) "election" 3 none rfl⟩

/-! ## Claim C5 -/

/-- A concrete admissible sampler (pandas `sample` restricted to returning
`n` rows): take the first `n`. -/
def takeSampler : List Article → Nat → List Article :=
  fun l n => l.take n

/-- C5 (amended): for any sampler that returns exactly the requested number
of rows, the sampling step of `app.py` puts at most 30 articles into the
prompt and uses the whole corpus, in original order, whenever it has at
most 30 articles; `recommender.py` caps at 25, not 30, so its prompt holds
at most 25 articles and the whole corpus only when it has at most 25. -/
theorem c5_sampling_caps (sampler : List Article → Nat → List Article)
    (hs : ∀ (l : List Article) (n : Nat), n ≤ l.length → (sampler l n).length = n)
    (df : List Article) :
    (sampleStep sampler df 30).length ≤ 30 ∧
    (df.length ≤ 30 → sampleStep sampler df 30 = df) ∧
    (sampleStep sampler df 25).length ≤ 25 ∧
    (df.length ≤ 25 → sampleStep sampler df 25 = df) := by
  have hcap : ∀ cap : Nat, (sampleStep sampler df cap).length ≤ cap ∧
      (df.length ≤ cap → sampleStep sampler df cap = df) := by
    intro cap
    unfold sampleStep
    by_cases h : df.length > min cap df.length
    · rw [if_pos h]
      have hle : min cap df.length ≤ df.length := Nat.min_le_right cap df.length
      rw [hs df (min cap df.length) hle]
      constructor
      · exact Nat.min_le_left cap df.length
      · intro hlen
        omega
    · rw [if_neg h]
      constructor
      · omega
      · intro _
        rfl
  exact ⟨(hcap 30).1, (hcap 30).2, (hcap 25).1, (hcap 25).2⟩

def w5small : List Article :=
  [Article.mk "A1" "c" "http://l1" "s", Article.mk "A2" "c" "http://l2" "s"]

theorem c5_sampling_caps_witness :
    (sampleStep takeSampler w5small 30).length ≤ 30 ∧
    sampleStep takeSampler w5small 30 = w5small ∧
    (sampleStep takeSampler w5small 25).length ≤ 25 ∧
    sampleStep takeSampler w5small 25 = w5small := by
  have hs : ∀ (l : List Article) (n : Nat), n ≤ l.length → (takeSampler l n).length = n := by
    intro l n h
    simp [takeSampler]
    omega
  have h := c5_sampling_caps takeSampler hs w5small
  exact ⟨h.1, h.2.1 (by decide), h.2.2.1, h.2.2.2 (by decide)⟩

def w5df : List Article :=
  (List.range 26).map (fun i => Article.mk ("T" ++ toString i ++ "X") "c" "http://l" "s")

/-- C5 counterexample: the claim cites the sampling step of both revisions,
but `recommender.py` caps at 25.  On a corpus of 26 articles (≤ 30), its
prompt holds only 25 of them: the article titled `T25X` is in the corpus
yet its title does not occur anywhere in the built prompt. -/
theorem c5_counterexample :
    w5df.length = 26 ∧ w5df.length ≤ 30 ∧
    Article.mk "T25X" "c" "http://l" "s" ∈ w5df ∧
    (sampleStep takeSampler w5df 25).length = 25 ∧
    pyContains (recPrompt takeSampler "R" "C" w5df) "T25X" = false := by
  refine ⟨by decide, by decide, by decide, by decide, by decide⟩

/-! ## Claim C6 -/

theorem appItems_decomp (x : Article) : ∀ (n : Nat) (l : List Article), x ∈ l →
    ∃ u w, joinNN (appItems n l) = u ++ ("\nTITLE: " ++ x.title ++ "\nLINK: ") ++ w := by
  intro n l
  induction l generalizing n with
  | nil => intro h; simp at h
  | cons a r ih =>
    intro h
    rcases List.mem_cons.mp h with rfl | hmem
    · cases r with
      | nil =>
        refine ⟨"ID: " ++ toString n, x.link ++ "\nSOURCE: " ++ x.source, ?_⟩
        simp only [appItems, joinNN]
        simp [strAssoc]
      | cons b rr =>
        refine ⟨"ID: " ++ toString n,
          x.link ++ "\nSOURCE: " ++ x.source ++ "\n\n" ++ joinNN (appItems (n + 1) (b :: rr)), ?_⟩
        simp only [appItems, joinNN]
        simp [strAssoc]
    · obtain ⟨u, w, hw⟩ := ih (n + 1) hmem
      have hr : r ≠ [] := List.ne_nil_of_mem hmem
      obtain ⟨b, rr, rfl⟩ := List.exists_cons_of_ne_nil hr
      refine ⟨("ID: " ++ toString n ++ "\nTITLE: " ++ a.title ++ "\nLINK: " ++ a.link ++
        "\nSOURCE: " ++ a.source) ++ "\n\n" ++ u, w, ?_⟩
      simp only [appItems, joinNN] at hw ⊢
      rw [hw]
      simp [strAssoc]

/-- C6 (amended): for a corpus of exactly 3 articles containing the
reference article, the sampling step uses the whole corpus (3 ≤ 30), the
built prompt serializes every one of the 3 articles, and the reference
title occurs (at least) twice — once in the REFERENCE ARTICLE section and
once in the reference article's own serialized entry — not exactly once as
claimed. -/
theorem c6_ref_title_twice (sampler : List Article → Nat → List Article)
    (corpus : List Article) (ref : Article) (content : String)
    (hlen : corpus.length = 3) (href : ref ∈ corpus) :
    sampleStep sampler corpus 30 = corpus ∧
    (∃ a b c, appPrompt sampler ref.title content corpus =
      a ++ ref.title ++ b ++ ref.title ++ c) ∧
    (∀ x ∈ corpus, ∃ u w, appPrompt sampler ref.title content corpus =
      u ++ ("\nTITLE: " ++ x.title ++ "\nLINK: ") ++ w) := by
  have hsample : sampleStep sampler corpus 30 = corpus := by
    unfold sampleStep
    rw [hlen]
    rfl
  refine ⟨hsample, ?_, ?_⟩
  · obtain ⟨u, w, hw⟩ := appItems_decomp ref 0 corpus href
    refine ⟨appT1, appT2 ++ content ++ appT3 ++ u ++ "\nTITLE: ",
      "\nLINK: " ++ w ++ appT4, ?_⟩
    unfold appPrompt appPromptOf
    rw [hsample, hw]
    simp [strAssoc]
  · intro x hx
    obtain ⟨u, w, hw⟩ := appItems_decomp x 0 corpus hx
    refine ⟨appT1 ++ ref.title ++ appT2 ++ content ++ appT3 ++ u, w ++ appT4, ?_⟩
    unfold appPrompt appPromptOf
    rw [hsample, hw]
    simp [strAssoc]

def w6corpus : List Article :=
  [Article.mk "T1alpha" "c1" "http://e1" "s1",
   Article.mk "T2beta" "c2" "http://e2" "s2",
   Article.mk "T3gamma" "c3" "http://e3" "s3"]

theorem c6_ref_title_twice_witness :
    sampleStep takeSampler w6corpus 30 = w6corpus ∧
    (∃ a b c, appPrompt takeSampler (Article.mk "T1alpha" "c1" "http://e1" "s1").title "c1"
        w6corpus =
      a ++ (Article.mk "T1alpha" "c1" "http://e1" "s1").title ++ b ++
        (Article.mk "T1alpha" "c1" "http://e1" "s1").title ++ c) := by
  have h := c6_ref_title_twice takeSampler w6corpus
    (Article.mk "T1alpha" "c1" "http://e1" "s1") "c1" rfl (by decide)
  exact ⟨h.1, h.2.1⟩

/-- C6 counterexample: on a concrete 3-article corpus containing the
reference article (title `T1alpha`), the built prompt contains the
reference title twice, not exactly once. -/
theorem c6_counterexample :
    w6corpus.length = 3 ∧
    Article.mk "T1alpha" "c1" "http://e1" "s1" ∈ w6corpus ∧
    pyCount (appPrompt takeSampler "T1alpha" "c1" w6corpus) "T1alpha" = 2 := by
  refine ⟨rfl, by decide, by decide⟩

/-! ## Claims C1 and C2: extraction filter lemmas -/

/-- The title value of a returned recommendation (`rec["title"]`,
`Json.null` standing for an absent key). -/
def titleValOf (r : Json) : Json :=
  match r with
  | .obj kvs => (objGet kvs "title").getD Json.null
  | _ => Json.null

theorem filterCond_true_shape {t : String} {r : Json}
    (h : filterCond t r = .ok true) : ∃ kvs, r = .obj kvs := by
  cases r with
  | obj kvs => exact ⟨kvs, rfl⟩
  | null => simp [filterCond] at h
  | bool b => simp [filterCond] at h
  | num a => simp [filterCond] at h
  | str s => simp [filterCond] at h
  | arr xs => simp [filterCond] at h

theorem filterCond_true_title {t : String} {r : Json}
    (h : filterCond t r = .ok true) : pyEqStr (titleValOf r) t = false := by
  obtain ⟨kvs, rfl⟩ := filterCond_true_shape h
  simp only [filterCond] at h
  repeat' split at h
  all_goals simp_all [titleValOf]

theorem appProj_title {kvs : List (String × Json)} :
    titleValOf (appProj (.obj kvs)) = (objGet kvs "title").getD Json.null := by
  simp [appProj, titleValOf, objGet]

theorem appFilter_no_ref (t : String) : ∀ (rs l : List Json),
    appFilterList t rs = .ok l → ∀ r ∈ l, pyEqStr (titleValOf r) t = false := by
  intro rs
  induction rs with
  | nil =>
    intro l h r hr
    simp [appFilterList] at h
    subst h
    simp at hr
  | cons r0 rest ih =>
    intro l h r hr
    unfold appFilterList at h
    cases hc : filterCond t r0 with
    | error e => rw [hc] at h; simp at h
    | ok b =>
      rw [hc] at h
      cases b with
      | true =>
        cases hrec : appFilterList t rest with
        | error e => rw [hrec] at h; simp at h
        | ok l2 =>
          rw [hrec] at h
          have h2 : appProj r0 :: l2 = l := by simpa using h
          rw [← h2] at hr
          rcases List.mem_cons.mp hr with rfl | hmem
          · obtain ⟨kvs, rfl⟩ := filterCond_true_shape hc
            rw [appProj_title]
            have := filterCond_true_title hc
            simpa [titleValOf] using this
          · exact ih l2 hrec r hmem
      | false => exact ih l h r hr

theorem recFilter_no_ref (t : String) : ∀ (rs l : List Json),
    recFilterList t rs = .ok l → ∀ r ∈ l, pyEqStr (titleValOf r) t = false := by
  intro rs
  induction rs with
  | nil =>
    intro l h r hr
    simp [recFilterList] at h
    subst h
    simp at hr
  | cons r0 rest ih =>
    intro l h r hr
    unfold recFilterList at h
    cases hc : filterCond t r0 with
    | error e => rw [hc] at h; simp at h
    | ok b =>
      rw [hc] at h
      cases b with
      | true =>
        cases hrec : recFilterList t rest with
        | error e => rw [hrec] at h; simp at h
        | ok l2 =>
          rw [hrec] at h
          have h2 : r0 :: l2 = l := by simpa using h
          rw [← h2] at hr
          rcases List.mem_cons.mp hr with rfl | hmem
          · exact filterCond_true_title hc
          · exact ih l2 hrec r hmem
      | false => exact ih l h r hr

/-! ## Claim C1 -/

/-- C1 (amended): whenever the strict JSON parse of the cleaned response
succeeds, neither revision returns an element whose title equals the
excluded reference title, and `recommender.py` additionally truncates to
at most 5 elements.  (`app.py` does not truncate its success-path output,
and the regex fallback branch of both revisions returns the re-parsed
island unfiltered and untruncated — see the counterexample.) -/
theorem c1_strict_path_bounds (raw t : String) :
    ((∃ v, jsonLoads (cleanApp raw) = some v) →
      ∀ r ∈ (appGetRecs t raw).1, pyEqStr (titleValOf r) t = false) ∧
    ((∃ v, jsonLoads (cleanRec raw) = some v) →
      ∀ l msgs, recGetRecs t raw = .ok (l, msgs) →
        l.length ≤ 5 ∧ ∀ r ∈ l, pyEqStr (titleValOf r) t = false) := by
  constructor
  · rintro ⟨v, hv⟩
    cases v with
    | arr xs =>
      have h1 : appGetRecs t raw = (match appFilterList t xs with
          | .ok valid => (valid, ([] : List Msg))
          | .error _ => ([], [Msg.genError])) := by
        simp only [appGetRecs]
        rw [hv]
      cases hfl : appFilterList t xs with
      | error e =>
        rw [hfl] at h1
        rw [h1]
        intro r hr
        have hr2 : r ∈ ([] : List Json) := hr
        simp at hr2
      | ok valid =>
        rw [hfl] at h1
        rw [h1]
        intro r hr
        have hr2 : r ∈ valid := hr
        exact appFilter_no_ref t xs valid hfl r hr2
    | null =>
      have h1 : appGetRecs t raw = ([], [Msg.formatError]) := by
        simp only [appGetRecs]
        rw [hv]
      rw [h1]
      intro r hr
      simp at hr
    | bool b =>
      have h1 : appGetRecs t raw = ([], [Msg.formatError]) := by
        simp only [appGetRecs]
        rw [hv]
      rw [h1]
      intro r hr
      simp at hr
    | num a =>
      have h1 : appGetRecs t raw = ([], [Msg.formatError]) := by
        simp only [appGetRecs]
        rw [hv]
      rw [h1]
      intro r hr
      simp at hr
    | str s =>
      have h1 : appGetRecs t raw = ([], [Msg.formatError]) := by
        simp only [appGetRecs]
        rw [hv]
      rw [h1]
      intro r hr
      simp at hr
    | obj kvs =>
      have h1 : appGetRecs t raw = ([], [Msg.formatError]) := by
        simp only [appGetRecs]
        rw [hv]
      rw [h1]
      intro r hr
      simp at hr
  · rintro ⟨v, hv⟩ l msgs h
    by_cases he : (pyStrip raw).isEmpty
    · have h1 : recGetRecs t raw = .ok ([], [Msg.emptyResponse]) := by
        unfold recGetRecs
        rw [if_pos he]
      rw [h1] at h
      have h2 : ([] : List Json) = l ∧ [Msg.emptyResponse] = msgs := by simpa using h
      rw [← h2.1]
      exact ⟨by simp, by simp⟩
    · cases v with
      | arr xs =>
        have h1 : recGetRecs t raw = (match recFilterList t xs with
            | .ok valid => .ok (valid.take 5, ([] : List Msg))
            | .error e => .error e) := by
          simp only [recGetRecs]
          rw [if_neg he, hv]
        cases hfl : recFilterList t xs with
        | error e =>
          rw [hfl] at h1
          rw [h1] at h
          simp at h
        | ok valid =>
          rw [hfl] at h1
          rw [h1] at h
          have h2 : valid.take 5 = l ∧ ([] : List Msg) = msgs := by simpa using h
          rw [← h2.1]
          constructor
          · simp [List.length_take_le 5 valid]
          · intro r hr
            exact recFilter_no_ref t xs valid hfl r (List.mem_of_mem_take hr)
      | null =>
        have h1 : recGetRecs t raw = .ok ([], [Msg.formatError]) := by
          simp only [recGetRecs]
          rw [if_neg he, hv]
        rw [h1] at h
        have h2 : ([] : List Json) = l ∧ [Msg.formatError] = msgs := by simpa using h
        rw [← h2.1]
        exact ⟨by simp, by simp⟩
      | bool b =>
        have h1 : recGetRecs t raw = .ok ([], [Msg.formatError]) := by
          simp only [recGetRecs]
          rw [if_neg he, hv]
        rw [h1] at h
        have h2 : ([] : List Json) = l ∧ [Msg.formatError] = msgs := by simpa using h
        rw [← h2.1]
        exact ⟨by simp, by simp⟩
      | num a =>
        have h1 : recGetRecs t raw = .ok ([], [Msg.formatError]) := by
          simp only [recGetRecs]
          rw [if_neg he, hv]
        rw [h1] at h
        have h2 : ([] : List Json) = l ∧ [Msg.formatError] = msgs := by simpa using h
        rw [← h2.1]
        exact ⟨by simp, by simp⟩
      | str s =>
        have h1 : recGetRecs t raw = .ok ([], [Msg.formatError]) := by
          simp only [recGetRecs]
          rw [if_neg he, hv]
        rw [h1] at h
        have h2 : ([] : List Json) = l ∧ [Msg.formatError] = msgs := by simpa using h
        rw [← h2.1]
        exact ⟨by simp, by simp⟩
      | obj kvs =>
        have h1 : recGetRecs t raw = .ok ([], [Msg.formatError]) := by
          simp only [recGetRecs]
          rw [if_neg he, hv]
        rw [h1] at h
        have h2 : ([] : List Json) = l ∧ [Msg.formatError] = msgs := by simpa using h
        rw [← h2.1]
        exact ⟨by simp, by simp⟩

def recOkList (e : Except Unit (List Json × List Msg)) : List Json :=
  match e with
  | .ok (l, _) => l
  | .error _ => []

def w1rawFallback : String :=
  "x [\x7b\"title\": \"REF\", \"link\": \"http://r\"\x7d, \x7b\"title\": \"B2\", \"link\": \"http://b2\"\x7d, \x7b\"title\": \"B3\", \"link\": \"http://b3\"\x7d, \x7b\"title\": \"B4\", \"link\": \"http://b4\"\x7d, \x7b\"title\": \"B5\", \"link\": \"http://b5\"\x7d, \x7b\"title\": \"B6\", \"link\": \"http://b6\"\x7d]"

def w1rawSix : String :=
  "[\x7b\"title\": \"D1\", \"link\": \"http://d1\"\x7d, \x7b\"title\": \"D2\", \"link\": \"http://d2\"\x7d, \x7b\"title\": \"D3\", \"link\": \"http://d3\"\x7d, \x7b\"title\": \"D4\", \"link\": \"http://d4\"\x7d, \x7b\"title\": \"D5\", \"link\": \"http://d5\"\x7d, \x7b\"title\": \"D6\", \"link\": \"http://d6\"\x7d]"

/-- C1 counterexample: on raw text whose strict parse fails but that
contains a bracket island of six objects, the first titled exactly with
the excluded reference title `REF`, both revisions return all six elements
including the excluded one (the fallback branch neither filters nor
truncates); and on a strictly parseable array of six valid objects,
`app.py`'s success path returns six elements, exceeding the claimed bound
of five. -/
theorem c1_counterexample :
    (appGetRecs "REF" w1rawFallback).1.length = 6 ∧
    pyEqStr (titleValOf ((appGetRecs "REF" w1rawFallback).1.headD Json.null)) "REF" = true ∧
    (recOkList (recGetRecs "REF" w1rawFallback)).length = 6 ∧
    pyEqStr (titleValOf ((recOkList (recGetRecs "REF" w1rawFallback)).headD Json.null))
      "REF" = true ∧
    (appGetRecs "REF" w1rawSix).1.length = 6 := by
  refine ⟨by decide, by decide, by decide, by decide, by decide⟩

theorem c1_strict_path_bounds_witness :
    pyEqStr (titleValOf (Json.obj [("title", Json.str "B"), ("link", Json.str "http://b")]))
      "A" = false ∧
    ([Json.obj [("title", Json.str "B"), ("link", Json.str "http://b")]] : List Json).length
      ≤ 5 := by
  have h := c1_strict_path_bounds "[\x7b\"title\": \"B\", \"link\": \"http://b\"\x7d]" "A"
  refine ⟨h.1 ⟨Json.arr [Json.obj [("title", Json.str "B"), ("link", Json.str "http://b")]],
    rfl⟩ _ ?_, (h.2 ⟨Json.arr [Json.obj [("title", Json.str "B"),
      ("link", Json.str "http://b")]], rfl⟩ _ [] rfl).1⟩
  exact List.mem_cons_self _ _

/-! ## Claim C2 -/

/-- C2 (amended): on raw text whose cleaned form neither parses as JSON
nor contains a bracket-pattern island, both revisions return the empty
list without raising; `app.py` always reports the parse error, and
`recommender.py` reports the parse error whenever the input has
non-whitespace content (a whitespace-only input is answered by its
empty-response guard instead, before any parse is attempted). -/
theorem c2_parse_error_reported (raw t : String)
    (h1 : jsonLoads (cleanApp raw) = none)
    (h2 : searchIslandS (cleanApp raw) = none)
    (h3 : jsonLoads (cleanRec raw) = none)
    (h4 : searchIslandS (cleanRec raw) = none) :
    appGetRecs t raw = ([], [Msg.parseError]) ∧
    (∃ m, recGetRecs t raw = .ok ([], [m]) ∧
      ((pyStrip raw).isEmpty = false → m = Msg.parseError)) := by
  constructor
  · simp only [appGetRecs]
    rw [h1, h2]
  · by_cases he : (pyStrip raw).isEmpty
    · refine ⟨Msg.emptyResponse, ?_, ?_⟩
      · simp only [recGetRecs]
        rw [if_pos he]
      · intro hf
        rw [he] at hf
        simp at hf
    · refine ⟨Msg.parseError, ?_, fun _ => rfl⟩
      simp only [recGetRecs]
      rw [if_neg he, h3, h4]

/-- C2 counterexample: a whitespace-only input is not parseable as JSON
and has no bracket island, yet `recommender.py` reports the empty-response
notice rather than a parse error (it returns before attempting a parse),
so "reports a parse error" fails on that boundary input. -/
theorem c2_counterexample :
    jsonLoads " " = none ∧
    searchIslandS " " = none ∧
    recGetRecs "T" " " = .ok ([], [Msg.emptyResponse]) ∧
    Msg.parseError ∉ [Msg.emptyResponse] := by
  refine ⟨rfl, rfl, rfl, by decide⟩

theorem c2_parse_error_reported_witness :
    appGetRecs "T" "not json at all" = ([], [Msg.parseError]) ∧
    (∃ m, recGetRecs "T" "not json at all" = .ok ([], [m]) ∧
      ((pyStrip "not json at all").isEmpty = false → m = Msg.parseError)) :=
  c2_parse_error_reported "not json at all" "T" rfl rfl rfl rfl

/-! ## Claim C4: the serialization/parse roundtrip

The idempotence claim needs `jsonLoads (jdumpS v) = some v` for every value
`v` the extraction can have returned.  The development below proves it for
well-formed values (`jsonWF`), shows the parser only produces well-formed
values, and shows the cleaning step leaves a serialization without `` ``` ``
untouched. -/

theorem strEta (s : String) : String.mk s.data = s := by
  rcases s with ⟨d⟩
  rfl

theorem startsWithL_append (p rest : List Char) : startsWithL p (p ++ rest) = true := by
  induction p with
  | nil => rfl
  | cons c cs ih => simp [startsWithL, ih]

theorem startsWith_eq_append {p l : List Char} (h : startsWithL p l = true) :
    ∃ q, l = p ++ q := by
  induction p generalizing l with
  | nil => exact ⟨l, rfl⟩
  | cons c cs ih =>
    cases l with
    | nil => simp [startsWithL] at h
    | cons d ds =>
      simp [startsWithL] at h
      obtain ⟨q, hq⟩ := ih h.2
      exact ⟨q, by rw [h.1, hq]; rfl⟩

theorem isDigit_range {c : Char} (h : c.isDigit = true) :
    48 ≤ c.toNat ∧ c.toNat ≤ 57 := by
  simp [Char.isDigit] at h
  obtain ⟨h1, h2⟩ := h
  exact ⟨h1, h2⟩

theorem digit_ne {c : Char} (h : c.isDigit = true) :
    c ≠ 'N' ∧ c ≠ 'I' ∧ c ≠ '-' ∧ c ≠ 't' ∧ c ≠ 'f' ∧ c ≠ 'n' ∧ c ≠ '\"' ∧
      c ≠ lbrace ∧ c ≠ '[' ∧ c ≠ ']' ∧ c ≠ '.' ∧ c ≠ 'e' ∧ c ≠ 'E' ∧
      c ≠ '+' ∧ c ≠ ',' ∧ c ≠ rbrace := by
  obtain ⟨h1, h2⟩ := isDigit_range h
  refine ⟨?_, ?_, ?_, ?_, ?_, ?_, ?_, ?_, ?_, ?_, ?_, ?_, ?_, ?_, ?_, ?_⟩ <;>
    · intro he
      rw [he] at h1 h2
      revert h1 h2
      decide

def digitsOnly (l : List Char) : Prop := ∀ c ∈ l, c.isDigit = true

/-- Characters that could extend a complete number token: any digit, a
decimal point, or an exponent marker. -/
def numContC (c : Char) : Bool := c.isDigit || c = '.' || c = 'e' || c = 'E'

/-- The characters following a number token do not extend it.  Holds for
an empty remainder and for remainders starting with a JSON separator. -/
def sepOk (rest : List Char) : Prop := ∀ c, rest.head? = some c → numContC c = false

theorem sepOk_nil : sepOk [] := by intro c h; simp at h

theorem sepOk_cons {c : Char} (h : numContC c = false) (rest : List Char) :
    sepOk (c :: rest) := by
  intro d hd
  simp at hd
  rw [← hd]
  exact h

theorem sepOk_head_not_digit {rest : List Char} (h : sepOk rest) :
    ∀ c, rest.head? = some c → c.isDigit = false := by
  intro c hc
  have := h c hc
  simp [numContC] at this
  exact this.1.1.1

theorem takeDigits_exact (ds rest : List Char) (hds : digitsOnly ds)
    (hrest : ∀ c, rest.head? = some c → c.isDigit = false) :
    takeDigits (ds ++ rest) = (ds, rest) := by
  induction ds with
  | nil =>
    simp only [List.nil_append, takeDigits]
    rw [dropWhile_head_false rest hrest]
    cases rest with
    | nil => rfl
    | cons c r =>
      rw [List.takeWhile_cons_of_neg]
      simp [hrest c rfl]
  | cons d ds2 ih =>
    have hd : d.isDigit = true := hds d (List.mem_cons_self d ds2)
    have hds2 : digitsOnly ds2 := fun c hc => hds c (List.mem_cons_of_mem d hc)
    have ih2 := ih hds2
    simp only [takeDigits] at ih2 ⊢
    simp only [List.cons_append, List.takeWhile_cons_of_pos hd,
      List.dropWhile_cons_of_pos hd]
    have h1 : (ds2 ++ rest).takeWhile Char.isDigit = ds2 := congrArg Prod.fst ih2
    have h2 : (ds2 ++ rest).dropWhile Char.isDigit = rest := congrArg Prod.snd ih2
    rw [h1, h2]

theorem takeDigits_eq (l : List Char) :
    l = (takeDigits l).1 ++ (takeDigits l).2 :=
  (List.takeWhile_append_dropWhile Char.isDigit l).symm

theorem takeDigits_digits (l : List Char) : digitsOnly (takeDigits l).1 := by
  intro c hc
  exact List.mem_takeWhile_imp hc

theorem takeDigits_stop (l : List Char) :
    ∀ c, (takeDigits l).2.head? = some c → c.isDigit = false := by
  exact head_dropWhile_false l

/-! ### Number token shapes

The lexemes `parseNumTok` can emit, characterized structurally; a shaped
token re-parses to itself, with any non-extending remainder left intact. -/

def fracShape (fr : List Char) : Prop :=
  fr = [] ∨ ∃ fds, fr = '.' :: fds ∧ fds ≠ [] ∧ digitsOnly fds

def expShape (ex : List Char) : Prop :=
  ex = [] ∨ ∃ c rest2, ex = c :: rest2 ∧ (c = 'e' ∨ c = 'E') ∧
    ((∃ s ds, rest2 = s :: ds ∧ (s = '+' ∨ s = '-') ∧ ds ≠ [] ∧ digitsOnly ds) ∨
     (rest2 ≠ [] ∧ digitsOnly rest2))

def bodyShape (tok : List Char) : Prop :=
  ∃ d ints frac ex, tok = d :: (ints ++ (frac ++ ex)) ∧ d.isDigit = true ∧
    digitsOnly ints ∧ (d = '0' → ints = []) ∧ fracShape frac ∧ expShape ex

def numShape (tok : List Char) : Prop :=
  tok = "NaN".data ∨ tok = "Infinity".data ∨ tok = "-Infinity".data ∨
    bodyShape tok ∨ ∃ bt, tok = '-' :: bt ∧ bodyShape bt

theorem expShape_head_not_digit {ex : List Char} (hex : expShape ex)
    {rest : List Char} (hrest : sepOk rest) :
    ∀ c, (ex ++ rest).head? = some c → c.isDigit = false := by
  rcases hex with rfl | ⟨c0, rest2, rfl, hce, _⟩
  · exact fun c hc => sepOk_head_not_digit hrest c hc
  · intro c hc
    simp at hc
    rcases hce with rfl | rfl <;> · rw [← hc]; rfl

theorem expGroup_ext {ex : List Char} (hex : expShape ex)
    {rest : List Char} (hrest : sepOk rest) :
    expGroup (ex ++ rest) = (ex, rest) := by
  rcases hex with rfl | ⟨c, rest2, rfl, hce, hforms⟩
  · cases rest with
    | nil => rfl
    | cons c r =>
      have hc := hrest c rfl
      simp [numContC] at hc
      simp [expGroup, hc.1.1.2, hc.1.2, hc.2]
  · rcases hforms with ⟨s, ds, rfl, hs, hne, hds⟩ | ⟨hne, hds⟩
    · have htd : takeDigits (ds ++ rest) = (ds, rest) :=
        takeDigits_exact ds rest hds (sepOk_head_not_digit hrest)
      rcases hce with rfl | rfl <;> rcases hs with rfl | rfl <;>
        simp [expGroup, htd, hne]
    · obtain ⟨s, ds2, rfl⟩ := List.exists_cons_of_ne_nil hne
      have hsd : s.isDigit = true := hds s (List.mem_cons_self s ds2)
      have hds2 : digitsOnly ds2 := fun x hx => hds x (List.mem_cons_of_mem s hx)
      have hsne := digit_ne hsd
      have htd : takeDigits (s :: (ds2 ++ rest)) = (s :: ds2, rest) := by
        have := takeDigits_exact (s :: ds2) rest hds (sepOk_head_not_digit hrest)
        simpa using this
      rcases hce with rfl | rfl <;>
        simp [expGroup, hsne.2.2.2.2.2.2.2.2.2.2.2.2.2.1, htd,
          fun h => hsne.2.2.1 h]

theorem fracGroup_ext {fr ex : List Char} (hfr : fracShape fr) (hex : expShape ex)
    {rest : List Char} (hrest : sepOk rest) :
    fracGroup (fr ++ (ex ++ rest)) = (fr, ex ++ rest) := by
  rcases hfr with rfl | ⟨fds, rfl, hne, hds⟩
  · simp only [List.nil_append]
    rcases hex with rfl | ⟨c0, rest2, rfl, hce, _⟩
    · cases rest with
      | nil => rfl
      | cons c r =>
        have hc := hrest c rfl
        simp [numContC] at hc
        simp [fracGroup, hc.1.1.2]
    · rcases hce with rfl | rfl <;> simp [fracGroup]
  · have htd : takeDigits (fds ++ (ex ++ rest)) = (fds, ex ++ rest) :=
      takeDigits_exact fds (ex ++ rest) hds (expShape_head_not_digit hex hrest)
    simp [fracGroup, htd, hne]

theorem fracShape_head_stop {fr ex : List Char} (hfr : fracShape fr)
    (hex : expShape ex) {rest : List Char} (hrest : sepOk rest) :
    ∀ c, (fr ++ (ex ++ rest)).head? = some c → c.isDigit = false := by
  rcases hfr with rfl | ⟨fds, rfl, _, _⟩
  · simpa using expShape_head_not_digit hex hrest
  · intro c hc
    simp at hc
    rw [← hc]
    rfl

theorem numBody_ext {tok : List Char} (hb : bodyShape tok)
    {rest : List Char} (hrest : sepOk rest) :
    numBody (tok ++ rest) = some (tok, rest) := by
  obtain ⟨d, ints, frac, ex, rfl, hd, hints, h0, hfr, hex⟩ := hb
  have hfg : fracGroup (frac ++ (ex ++ rest)) = (frac, ex ++ rest) :=
    fracGroup_ext hfr hex hrest
  have heg : expGroup (ex ++ rest) = (ex, rest) := expGroup_ext hex hrest
  by_cases hz : d = '0'
  · subst hz
    rw [h0 rfl]
    simp only [List.nil_append, List.cons_append]
    simp [numBody, List.append_assoc, hfg, heg]
  · have htd : takeDigits (ints ++ (frac ++ (ex ++ rest))) = (ints, frac ++ (ex ++ rest)) :=
      takeDigits_exact ints (frac ++ (ex ++ rest)) hints (fracShape_head_stop hfr hex hrest)
    simp only [List.cons_append, List.append_assoc]
    simp [numBody, hd, hz, List.append_assoc, htd, hfg, heg]

theorem parseNumTok_ext {tok : List Char} (hn : numShape tok)
    {rest : List Char} (hrest : sepOk rest) :
    parseNumTok (tok ++ rest) = some (tok, rest) := by
  rcases hn with rfl | rfl | rfl | hb | ⟨bt, rfl, hb⟩
  · show parseNumTok ('N' :: 'a' :: 'N' :: rest) = _
    simp [parseNumTok, startsWithL]
  · show parseNumTok ('I' :: 'n' :: 'f' :: 'i' :: 'n' :: 'i' :: 't' :: 'y' :: rest) = _
    simp [parseNumTok, startsWithL]
  · show parseNumTok ('-' :: 'I' :: 'n' :: 'f' :: 'i' :: 'n' :: 'i' :: 't' :: 'y' :: rest) = _
    simp [parseNumTok, startsWithL]
  · have hbody := numBody_ext hb hrest
    obtain ⟨d, ints, frac, ex, rfl, hd, -, -, -, -⟩ := hb
    have hne := digit_ne hd
    simp only [List.cons_append, List.append_assoc] at hbody ⊢
    simp [parseNumTok, startsWithL, Ne.symm hne.1, Ne.symm hne.2.1,
      Ne.symm hne.2.2.1, hne.2.2.1, hbody]
  · have hbody := numBody_ext hb hrest
    obtain ⟨d, ints, frac, ex, rfl, hd, -, -, -, -⟩ := hb
    have hne := digit_ne hd
    simp only [List.cons_append, List.append_assoc] at hbody ⊢
    simp [parseNumTok, startsWithL, Ne.symm hne.2.1, hbody]

theorem expGroup_shape (l : List Char) : expShape (expGroup l).1 := by
  cases l with
  | nil => left; rfl
  | cons c r =>
    by_cases hce : c = 'e' ∨ c = 'E'
    · cases r with
      | nil =>
        have he : expGroup (c :: []) = ([], c :: []) := by
          rcases hce with rfl | rfl <;> simp [expGroup]
        rw [he]
        left
        rfl
      | cons s r2 =>
        by_cases hs : s = '+' ∨ s = '-'
        · rcases hds : (takeDigits r2).1 with _ | ⟨d0, ds0⟩
          · have he : expGroup (c :: s :: r2) = ([], c :: s :: r2) := by
              rcases hce with rfl | rfl <;> rcases hs with rfl | rfl <;>
                simp [expGroup, hds]
            rw [he]
            left
            rfl
          · have he : expGroup (c :: s :: r2) = (c :: s :: d0 :: ds0, (takeDigits r2).2) := by
              rcases hce with rfl | rfl <;> rcases hs with rfl | rfl <;>
                simp [expGroup, hds]
            rw [he]
            right
            refine ⟨c, s :: d0 :: ds0, rfl, hce,
              Or.inl ⟨s, d0 :: ds0, rfl, hs, by simp, ?_⟩⟩
            rw [← hds]
            exact takeDigits_digits r2
        · have hs1 : ¬ s = '+' := fun h => hs (Or.inl h)
          have hs2 : ¬ s = '-' := fun h => hs (Or.inr h)
          rcases hds : (takeDigits (s :: r2)).1 with _ | ⟨d0, ds0⟩
          · have he : expGroup (c :: s :: r2) = ([], c :: s :: r2) := by
              rcases hce with rfl | rfl <;> simp [expGroup, hs1, hs2, hds]
            rw [he]
            left
            rfl
          · have he : expGroup (c :: s :: r2) =
                (c :: d0 :: ds0, (takeDigits (s :: r2)).2) := by
              rcases hce with rfl | rfl <;> simp [expGroup, hs1, hs2, hds]
            rw [he]
            right
            refine ⟨c, d0 :: ds0, rfl, hce, Or.inr ⟨by simp, ?_⟩⟩
            rw [← hds]
            exact takeDigits_digits (s :: r2)
    · have h1 : ¬ c = 'e' := fun h => hce (Or.inl h)
      have h2 : ¬ c = 'E' := fun h => hce (Or.inr h)
      have he : expGroup (c :: r) = ([], c :: r) := by simp [expGroup, h1, h2]
      rw [he]
      left
      rfl

theorem fracGroup_shape (l : List Char) : fracShape (fracGroup l).1 := by
  cases l with
  | nil => left; rfl
  | cons c r =>
    by_cases hc : c = '.'
    · subst hc
      rcases hds : (takeDigits r).1 with _ | ⟨d0, ds0⟩
      · have he : fracGroup ('.' :: r) = ([], '.' :: r) := by simp [fracGroup, hds]
        rw [he]
        left
        rfl
      · have he : fracGroup ('.' :: r) = ('.' :: d0 :: ds0, (takeDigits r).2) := by
          simp [fracGroup, hds]
        rw [he]
        right
        refine ⟨d0 :: ds0, rfl, by simp, ?_⟩
        rw [← hds]
        exact takeDigits_digits r
    · have he : fracGroup (c :: r) = ([], c :: r) := by simp [fracGroup, hc]
      rw [he]
      left
      rfl

theorem expGroup_eq (l : List Char) : l = (expGroup l).1 ++ (expGroup l).2 := by
  cases l with
  | nil => rfl
  | cons c r =>
    by_cases hce : c = 'e' ∨ c = 'E'
    · cases r with
      | nil =>
        have he : expGroup (c :: []) = ([], c :: []) := by
          rcases hce with rfl | rfl <;> simp [expGroup]
        rw [he]
        rfl
      | cons s r2 =>
        by_cases hs : s = '+' ∨ s = '-'
        · rcases hds : (takeDigits r2).1 with _ | ⟨d0, ds0⟩
          · have he : expGroup (c :: s :: r2) = ([], c :: s :: r2) := by
              rcases hce with rfl | rfl <;> rcases hs with rfl | rfl <;>
                simp [expGroup, hds]
            rw [he]
            rfl
          · have he : expGroup (c :: s :: r2) = (c :: s :: d0 :: ds0, (takeDigits r2).2) := by
              rcases hce with rfl | rfl <;> rcases hs with rfl | rfl <;>
                simp [expGroup, hds]
            rw [he]
            have h2 := takeDigits_eq r2
            rw [hds] at h2
            simp only [List.cons_append]
            conv_lhs => rw [h2]
            simp
        · have hs1 : ¬ s = '+' := fun h => hs (Or.inl h)
          have hs2 : ¬ s = '-' := fun h => hs (Or.inr h)
          rcases hds : (takeDigits (s :: r2)).1 with _ | ⟨d0, ds0⟩
          · have he : expGroup (c :: s :: r2) = ([], c :: s :: r2) := by
              rcases hce with rfl | rfl <;> simp [expGroup, hs1, hs2, hds]
            rw [he]
            rfl
          · have he : expGroup (c :: s :: r2) =
                (c :: d0 :: ds0, (takeDigits (s :: r2)).2) := by
              rcases hce with rfl | rfl <;> simp [expGroup, hs1, hs2, hds]
            rw [he]
            have h2 := takeDigits_eq (s :: r2)
            rw [hds] at h2
            simp only [List.cons_append]
            conv_lhs => rw [h2]
            simp
    · have h1 : ¬ c = 'e' := fun h => hce (Or.inl h)
      have h2 : ¬ c = 'E' := fun h => hce (Or.inr h)
      have he : expGroup (c :: r) = ([], c :: r) := by simp [expGroup, h1, h2]
      rw [he]
      rfl

theorem fracGroup_eq (l : List Char) : l = (fracGroup l).1 ++ (fracGroup l).2 := by
  cases l with
  | nil => rfl
  | cons c r =>
    by_cases hc : c = '.'
    · subst hc
      rcases hds : (takeDigits r).1 with _ | ⟨d0, ds0⟩
      · have he : fracGroup ('.' :: r) = ([], '.' :: r) := by simp [fracGroup, hds]
        rw [he]
        rfl
      · have he : fracGroup ('.' :: r) = ('.' :: d0 :: ds0, (takeDigits r).2) := by
          simp [fracGroup, hds]
        rw [he]
        have h2 := takeDigits_eq r
        rw [hds] at h2
        simp only [List.cons_append]
        conv_lhs => rw [h2]
        simp
    · have he : fracGroup (c :: r) = ([], c :: r) := by simp [fracGroup, hc]
      rw [he]
      rfl

theorem numBody_zero (r : List Char) :
    numBody ('0' :: r) = some ('0' :: ((fracGroup r).1 ++ (expGroup (fracGroup r).2).1),
      (expGroup (fracGroup r).2).2) := by
  simp [numBody]

theorem numBody_pos {c : Char} (r : List Char) (hd : c.isDigit = true) (hz : ¬ c = '0') :
    numBody (c :: r) = some (c :: ((takeDigits r).1 ++
        ((fracGroup (takeDigits r).2).1 ++ (expGroup (fracGroup (takeDigits r).2).2).1)),
      (expGroup (fracGroup (takeDigits r).2).2).2) := by
  simp [numBody, hd, hz]

theorem numBody_shape_eq {l tok rest : List Char} (h : numBody l = some (tok, rest)) :
    bodyShape tok ∧ l = tok ++ rest := by
  cases l with
  | nil => simp [numBody] at h
  | cons c r =>
    by_cases hd : c.isDigit = true
    · by_cases hz : c = '0'
      · subst hz
        rw [numBody_zero r] at h
        simp only [Option.some.injEq, Prod.mk.injEq] at h
        obtain ⟨htok, hrest⟩ := h
        subst htok
        subst hrest
        constructor
        · exact ⟨'0', [], (fracGroup r).1, (expGroup (fracGroup r).2).1, by simp, rfl,
            fun x hx => absurd hx (List.not_mem_nil x), fun _ => rfl,
            fracGroup_shape r, expGroup_shape (fracGroup r).2⟩
        · simp only [List.cons_append, List.nil_append]
          conv_lhs => rw [fracGroup_eq r]
          rw [List.append_assoc]
          conv_lhs => rw [expGroup_eq (fracGroup r).2]
      · rw [numBody_pos r hd hz] at h
        simp only [Option.some.injEq, Prod.mk.injEq] at h
        obtain ⟨htok, hrest⟩ := h
        subst htok
        subst hrest
        constructor
        · exact ⟨c, (takeDigits r).1, (fracGroup (takeDigits r).2).1,
            (expGroup (fracGroup (takeDigits r).2).2).1, rfl, hd,
            takeDigits_digits r, fun h0 => absurd h0 hz,
            fracGroup_shape (takeDigits r).2, expGroup_shape (fracGroup (takeDigits r).2).2⟩
        · simp only [List.cons_append]
          conv_lhs => rw [takeDigits_eq r]
          rw [List.append_assoc]
          conv_lhs => rw [fracGroup_eq (takeDigits r).2]
          rw [List.append_assoc]
          conv_lhs => rw [expGroup_eq (fracGroup (takeDigits r).2).2]
    · simp [numBody, hd] at h

theorem parseNumTok_shape_eq {l tok rest : List Char}
    (h : parseNumTok l = some (tok, rest)) : numShape tok ∧ l = tok ++ rest := by
  unfold parseNumTok at h
  by_cases h1 : startsWithL "NaN".data l = true
  · rw [if_pos h1] at h
    simp only [Option.some.injEq, Prod.mk.injEq] at h
    obtain ⟨htok, hrest⟩ := h
    obtain ⟨q, rfl⟩ := startsWith_eq_append h1
    subst htok
    subst hrest
    refine ⟨Or.inl rfl, ?_⟩
    rw [List.drop_left' (by rfl)]
  · rw [if_neg h1] at h
    by_cases h2 : startsWithL "Infinity".data l = true
    · rw [if_pos h2] at h
      simp only [Option.some.injEq, Prod.mk.injEq] at h
      obtain ⟨htok, hrest⟩ := h
      obtain ⟨q, rfl⟩ := startsWith_eq_append h2
      subst htok
      subst hrest
      refine ⟨Or.inr (Or.inl rfl), ?_⟩
      rw [List.drop_left' (by rfl)]
    · rw [if_neg h2] at h
      by_cases h3 : startsWithL "-Infinity".data l = true
      · rw [if_pos h3] at h
        simp only [Option.some.injEq, Prod.mk.injEq] at h
        obtain ⟨htok, hrest⟩ := h
        obtain ⟨q, rfl⟩ := startsWith_eq_append h3
        subst htok
        subst hrest
        refine ⟨Or.inr (Or.inr (Or.inl rfl)), ?_⟩
        rw [List.drop_left' (by rfl)]
      · rw [if_neg h3] at h
        cases l with
        | nil => simp at h
        | cons c r =>
          replace h : (if c = '-' then Option.map (fun p => ('-' :: p.1, p.2)) (numBody r)
              else numBody (c :: r)) = some (tok, rest) := h
          by_cases hm : c = '-'
          · rw [if_pos hm] at h
            subst hm
            cases hb : numBody r with
            | none => rw [hb] at h; simp at h
            | some p =>
              rw [hb] at h
              rcases p with ⟨bt, rr⟩
              simp only [Option.map_some', Option.some.injEq, Prod.mk.injEq] at h
              obtain ⟨htok, hrest⟩ := h
              obtain ⟨hshape, heq⟩ := numBody_shape_eq hb
              subst htok
              subst hrest
              exact ⟨Or.inr (Or.inr (Or.inr (Or.inr ⟨bt, rfl, hshape⟩))),
                by rw [heq]; rfl⟩
          · rw [if_neg hm] at h
            obtain ⟨hshape, heq⟩ := numBody_shape_eq h
            exact ⟨Or.inr (Or.inr (Or.inr (Or.inl hshape))), heq⟩

theorem numOk_shape {raw : String} (h : numOk raw = true) : numShape raw.data := by
  unfold numOk at h
  cases hp : parseNumTok raw.data with
  | none => rw [hp] at h; simp at h
  | some p =>
    rcases p with ⟨tok, rest⟩
    rw [hp] at h
    cases rest with
    | nil =>
      obtain ⟨hshape, heq⟩ := parseNumTok_shape_eq hp
      rw [List.append_nil] at heq
      rw [heq]
      exact hshape
    | cons x xs => simp at h

theorem numShape_numOk {tok : List Char} (h : numShape tok) :
    numOk (String.mk tok) = true := by
  have he := parseNumTok_ext h sepOk_nil
  rw [List.append_nil] at he
  unfold numOk
  show (match parseNumTok tok with
    | some (_, []) => true
    | _ => false) = true
  rw [he]

/-! ### String escape round trip

Each `escChar c`-encoded character is decoded back to `c` by the string
scanner, one unit of fuel per decoded character. -/

theorem hexDig_rt (d : Nat) (h : d < 16) : parseHexDig (hexDigChar d) = some d := by
  interval_cases d <;> decide

theorem charValidRange (c : Char) :
    c.toNat < 55296 ∨ (57343 < c.toNat ∧ c.toNat < 1114112) := by
  have h := c.valid
  rcases h with h1 | ⟨h1, h2⟩
  · left; exact h1
  · right; exact ⟨h1, h2⟩

theorem pStr_close (f : Nat) (acc r : List Char) :
    parseStrAux (f + 1) acc ('\"' :: r) = some (String.mk acc.reverse, r) := by
  simp [parseStrAux]

theorem pStr_esc_q (f : Nat) (acc r : List Char) :
    parseStrAux (f + 1) acc ('\\' :: '\"' :: r) = parseStrAux f ('\"' :: acc) r := by
  simp [parseStrAux]

theorem pStr_esc_bs (f : Nat) (acc r : List Char) :
    parseStrAux (f + 1) acc ('\\' :: '\\' :: r) = parseStrAux f ('\\' :: acc) r := by
  simp [parseStrAux]

theorem pStr_esc_n (f : Nat) (acc r : List Char) :
    parseStrAux (f + 1) acc ('\\' :: 'n' :: r) = parseStrAux f ('\n' :: acc) r := by
  simp [parseStrAux]

theorem pStr_esc_r (f : Nat) (acc r : List Char) :
    parseStrAux (f + 1) acc ('\\' :: 'r' :: r) = parseStrAux f ('\r' :: acc) r := by
  simp [parseStrAux]

theorem pStr_esc_t (f : Nat) (acc r : List Char) :
    parseStrAux (f + 1) acc ('\\' :: 't' :: r) = parseStrAux f ('\t' :: acc) r := by
  simp [parseStrAux]

theorem pStr_esc_b (f : Nat) (acc r : List Char) :
    parseStrAux (f + 1) acc ('\\' :: 'b' :: r) =
      parseStrAux f (Char.ofNat 8 :: acc) r := by
  simp [parseStrAux]

theorem pStr_esc_f (f : Nat) (acc r : List Char) :
    parseStrAux (f + 1) acc ('\\' :: 'f' :: r) =
      parseStrAux f (Char.ofNat 12 :: acc) r := by
  simp [parseStrAux]

theorem pStr_plain (f : Nat) (acc r : List Char) {c : Char} (hq : ¬ c = '\"')
    (hb : ¬ c = '\\') (hc : ¬ c.toNat < 32) :
    parseStrAux (f + 1) acc (c :: r) = parseStrAux f (c :: acc) r := by
  simp [parseStrAux, hq, hb, hc]

theorem pStr_u_step (f : Nat) (acc : List Char) {h1 h2 h3 h4 : Char}
    {a b c d : Nat} (ha : parseHexDig h1 = some a) (hb : parseHexDig h2 = some b)
    (hc : parseHexDig h3 = some c) (hd : parseHexDig h4 = some d) (r3 : List Char) :
    parseStrAux (f + 1) acc ('\\' :: 'u' :: h1 :: h2 :: h3 :: h4 :: r3) =
      uCont f acc (a * 4096 + b * 256 + c * 16 + d) r3 := by
  simp only [parseStrAux, ha, hb, hc, hd]
  simp [uCont]

theorem uCont_plain (f : Nat) (acc r : List Char) (n : Nat)
    (hc1 : (55296 ≤ n && n ≤ 56319 : Bool) = false)
    (hc2 : (56320 ≤ n && n ≤ 57343 : Bool) = false) :
    uCont f acc n r = parseStrAux f (Char.ofNat n :: acc) r := by
  simp only [uCont, hc1, hc2]
  simp

theorem uCont_pair (f : Nat) (acc r : List Char) (n : Nat) {e1 e2 e3 e4 : Char}
    {a b c d : Nat} (ha : parseHexDig e1 = some a) (hb : parseHexDig e2 = some b)
    (hc : parseHexDig e3 = some c) (hd : parseHexDig e4 = some d)
    (hn : (55296 ≤ n && n ≤ 56319 : Bool) = true)
    (hm : (56320 ≤ a * 4096 + b * 256 + c * 16 + d &&
      a * 4096 + b * 256 + c * 16 + d ≤ 57343 : Bool) = true) :
    uCont f acc n ('\\' :: 'u' :: e1 :: e2 :: e3 :: e4 :: r) =
      parseStrAux f
        (Char.ofNat (65536 + (n - 55296) * 1024 +
          (a * 4096 + b * 256 + c * 16 + d - 56320)) :: acc) r := by
  simp only [uCont, hn, ha, hb, hc, hd, hm]
  simp

theorem pStr_hex (f : Nat) (acc r : List Char) (n : Nat) (h16 : n < 65536)
    (hv : n < 55296 ∨ 57343 < n) :
    parseStrAux (f + 1) acc ('\\' :: 'u' :: (hex4 n ++ r)) =
      parseStrAux f (Char.ofNat n :: acc) r := by
  have hd1 := hexDig_rt (n / 4096 % 16) (Nat.mod_lt _ (by norm_num))
  have hd2 := hexDig_rt (n / 256 % 16) (Nat.mod_lt _ (by norm_num))
  have hd3 := hexDig_rt (n / 16 % 16) (Nat.mod_lt _ (by norm_num))
  have hd4 := hexDig_rt (n % 16) (Nat.mod_lt _ (by norm_num))
  have hre : n / 4096 % 16 * 4096 + n / 256 % 16 * 256 + n / 16 % 16 * 16 + n % 16 = n := by
    omega
  have hc1 : (55296 ≤ n && n ≤ 56319 : Bool) = false := by
    simp only [Bool.and_eq_false_iff, decide_eq_false_iff_not]
    omega
  have hc2 : (56320 ≤ n && n ≤ 57343 : Bool) = false := by
    simp only [Bool.and_eq_false_iff, decide_eq_false_iff_not]
    omega
  simp only [hex4, List.cons_append, List.nil_append]
  rw [pStr_u_step f acc hd1 hd2 hd3 hd4 r, hre, uCont_plain f acc r n hc1 hc2]

theorem pStr_sur (f : Nat) (acc r : List Char) (t : Nat) (h1 : 65536 ≤ t)
    (h2 : t < 1114112) :
    parseStrAux (f + 1) acc
      ('\\' :: 'u' :: (hex4 (55296 + (t - 65536) / 1024) ++
        ('\\' :: 'u' :: (hex4 (56320 + (t - 65536) % 1024) ++ r)))) =
      parseStrAux f (Char.ofNat t :: acc) r := by
  set n := 55296 + (t - 65536) / 1024 with hn
  set m := 56320 + (t - 65536) % 1024 with hm
  have hd1 := hexDig_rt (n / 4096 % 16) (Nat.mod_lt _ (by norm_num))
  have hd2 := hexDig_rt (n / 256 % 16) (Nat.mod_lt _ (by norm_num))
  have hd3 := hexDig_rt (n / 16 % 16) (Nat.mod_lt _ (by norm_num))
  have hd4 := hexDig_rt (n % 16) (Nat.mod_lt _ (by norm_num))
  have he1 := hexDig_rt (m / 4096 % 16) (Nat.mod_lt _ (by norm_num))
  have he2 := hexDig_rt (m / 256 % 16) (Nat.mod_lt _ (by norm_num))
  have he3 := hexDig_rt (m / 16 % 16) (Nat.mod_lt _ (by norm_num))
  have he4 := hexDig_rt (m % 16) (Nat.mod_lt _ (by norm_num))
  have hrn : n / 4096 % 16 * 4096 + n / 256 % 16 * 256 + n / 16 % 16 * 16 + n % 16 = n := by
    omega
  have hrm : m / 4096 % 16 * 4096 + m / 256 % 16 * 256 + m / 16 % 16 * 16 + m % 16 = m := by
    omega
  have hc1 : (55296 ≤ n && n ≤ 56319 : Bool) = true := by
    simp only [Bool.and_eq_true, decide_eq_true_eq]
    omega
  have hc2 : (56320 ≤ m && m ≤ 57343 : Bool) = true := by
    simp only [Bool.and_eq_true, decide_eq_true_eq]
    omega
  have hchar : 65536 + (n - 55296) * 1024 + (m - 56320) = t := by
    omega
  have hc2s : (56320 ≤ m / 4096 % 16 * 4096 + m / 256 % 16 * 256 + m / 16 % 16 * 16 + m % 16 &&
      m / 4096 % 16 * 4096 + m / 256 % 16 * 256 + m / 16 % 16 * 16 + m % 16 ≤ 57343 : Bool) =
      true := by
    rw [hrm]
    exact hc2
  simp only [hex4, List.cons_append, List.nil_append]
  rw [pStr_u_step f acc hd1 hd2 hd3 hd4, hrn,
    uCont_pair f acc r n he1 he2 he3 he4 hc1 hc2s, hrm, hchar]

theorem parseStr_rt (s : List Char) : ∀ (f : Nat) (acc rest : List Char),
    s.length < f →
    parseStrAux f acc (escList s ++ '\"' :: rest) =
      some (String.mk (acc.reverse ++ s), rest) := by
  induction s with
  | nil =>
    intro f acc rest hf
    cases f with
    | zero => exact absurd hf (Nat.not_lt_zero _)
    | succ f' =>
      simp only [escList, List.nil_append]
      rw [pStr_close]
      simp
  | cons c s' ih =>
    intro f acc rest hf
    cases f with
    | zero => exact absurd hf (Nat.not_lt_zero _)
    | succ f' =>
      have hf' : s'.length < f' := by
        simp only [List.length_cons] at hf
        omega
      have hstep : ∀ c2 : Char,
          parseStrAux f' (c2 :: acc) (escList s' ++ '\"' :: rest) =
            some (String.mk ((c2 :: acc).reverse ++ s'), rest) :=
        fun c2 => ih f' (c2 :: acc) rest hf'
      simp only [escList, List.append_assoc]
      by_cases hq : c = '\"'
      · subst hq
        have he : escChar '\"' = ['\\', '\"'] := by decide
        rw [he]
        simp only [List.cons_append, List.nil_append]
        rw [pStr_esc_q, hstep]
        simp
      · by_cases hbs : c = '\\'
        · subst hbs
          have he : escChar '\\' = ['\\', '\\'] := by decide
          rw [he]
          simp only [List.cons_append, List.nil_append]
          rw [pStr_esc_bs, hstep]
          simp
        · by_cases hnl : c = '\n'
          · subst hnl
            have he : escChar '\n' = ['\\', 'n'] := by decide
            rw [he]
            simp only [List.cons_append, List.nil_append]
            rw [pStr_esc_n, hstep]
            simp
          · by_cases hcr : c = '\r'
            · subst hcr
              have he : escChar '\r' = ['\\', 'r'] := by decide
              rw [he]
              simp only [List.cons_append, List.nil_append]
              rw [pStr_esc_r, hstep]
              simp
            · by_cases htb : c = '\t'
              · subst htb
                have he : escChar '\t' = ['\\', 't'] := by decide
                rw [he]
                simp only [List.cons_append, List.nil_append]
                rw [pStr_esc_t, hstep]
                simp
              · by_cases hb8 : c = Char.ofNat 8
                · subst hb8
                  have he : escChar (Char.ofNat 8) = ['\\', 'b'] := by decide
                  rw [he]
                  simp only [List.cons_append, List.nil_append]
                  rw [pStr_esc_b, hstep]
                  simp
                · by_cases hf12 : c = Char.ofNat 12
                  · subst hf12
                    have he : escChar (Char.ofNat 12) = ['\\', 'f'] := by decide
                    rw [he]
                    simp only [List.cons_append, List.nil_append]
                    rw [pStr_esc_f, hstep]
                    simp
                  · by_cases h32 : c.toNat < 32
                    · have he : escChar c = '\\' :: 'u' :: hex4 c.toNat := by
                        simp [escChar, hq, hbs, hnl, hcr, htb, hb8, hf12, h32, uEsc]
                      rw [he]
                      simp only [List.cons_append]
                      rw [pStr_hex f' acc _ c.toNat (by omega) (Or.inl (by omega)),
                        Char.ofNat_toNat, hstep]
                      simp
                    · by_cases h127 : c.toNat < 127
                      · have he : escChar c = [c] := by
                          simp [escChar, hq, hbs, hnl, hcr, htb, hb8, hf12, h32, h127]
                        rw [he]
                        simp only [List.cons_append, List.nil_append]
                        rw [pStr_plain f' acc _ hq hbs h32, hstep]
                        simp
                      · by_cases h64k : c.toNat < 65536
                        · have he : escChar c = '\\' :: 'u' :: hex4 c.toNat := by
                            simp [escChar, hq, hbs, hnl, hcr, htb, hb8, hf12, h32, h127,
                              h64k, uEsc]
                          rw [he]
                          simp only [List.cons_append]
                          have hv : c.toNat < 55296 ∨ 57343 < c.toNat := by
                            rcases charValidRange c with h | ⟨h, _⟩
                            · exact Or.inl h
                            · exact Or.inr h
                          rw [pStr_hex f' acc _ c.toNat h64k hv, Char.ofNat_toNat, hstep]
                          simp
                        · have he : escChar c =
                              '\\' :: 'u' :: (hex4 (55296 + (c.toNat - 65536) / 1024) ++
                                ('\\' :: 'u' :: hex4 (56320 + (c.toNat - 65536) % 1024))) := by
                            simp [escChar, hq, hbs, hnl, hcr, htb, hb8, hf12, h32, h127,
                              h64k, uEsc]
                          rw [he]
                          have hlt : c.toNat < 1114112 := by
                            rcases charValidRange c with h | ⟨_, h⟩
                            · omega
                            · exact h
                          simp only [List.cons_append, List.append_assoc]
                          rw [pStr_sur f' acc _ c.toNat (by omega) hlt,
                            Char.ofNat_toNat, hstep]
                          simp

theorem escChar_len (c : Char) : 1 ≤ (escChar c).length := by
  unfold escChar
  repeat' split
  all_goals simp [uEsc, hex4]

theorem escList_len (s : List Char) : s.length ≤ (escList s).length := by
  induction s with
  | nil => simp [escList]
  | cons c s' ih =>
    simp only [escList, List.length_cons, List.length_append]
    have := escChar_len c
    omega

/-- The scanner invocation made by `parseVal` and `objRest` on the encoded
body of a dumped string: fuel `length + 1` suffices and the original string
comes back. -/
theorem parseStr_call (s : String) (rest : List Char) :
    parseStrAux ((escList s.data ++ '\"' :: rest).length + 1) []
      (escList s.data ++ '\"' :: rest) = some (s, rest) := by
  have hf : s.data.length < (escList s.data ++ '\"' :: rest).length + 1 := by
    have := escList_len s.data
    simp only [List.length_append, List.length_cons]
    omega
  rw [parseStr_rt s.data _ [] rest hf]
  simp [strEta]

theorem digit_not_ws {c : Char} (h : c.isDigit = true) :
    (c = ' ' || c = '\t' || c = '\n' || c = '\r') = false := by
  obtain ⟨h1, h2⟩ := isDigit_range h
  simp only [Bool.or_eq_false_iff, decide_eq_false_iff_not]
  refine ⟨⟨⟨?_, ?_⟩, ?_⟩, ?_⟩ <;>
    · intro he
      rw [he] at h1 h2
      revert h1 h2
      decide

/-- The first character of a dumped well-formed value: never JSON whitespace
and never a closing bracket, so the skip before a value is the identity and
the empty-array test fails on it. -/
theorem jdumpV_head (v : Json) (h : jsonWF v = true) :
    ∃ c t, jdumpV v = c :: t ∧
      (c = ' ' || c = '\t' || c = '\n' || c = '\r') = false ∧ c ≠ ']' := by
  cases v with
  | null => exact ⟨'n', _, rfl, by decide, by decide⟩
  | bool b =>
    cases b with
    | true => exact ⟨'t', "rue".data, rfl, by decide, by decide⟩
    | false => exact ⟨'f', "alse".data, rfl, by decide, by decide⟩
  | str s => exact ⟨'\"', _, rfl, by decide, by decide⟩
  | num raw =>
    have hs : numShape raw.data := numOk_shape h
    rcases hs with he | he | he | hb | ⟨bt, he, _⟩
    · exact ⟨'N', _, by rw [jdumpV, he], by decide, by decide⟩
    · exact ⟨'I', _, by rw [jdumpV, he], by decide, by decide⟩
    · exact ⟨'-', _, by rw [jdumpV, he], by decide, by decide⟩
    · obtain ⟨d, ints, frac, ex, he, hd, -, -, -, -⟩ := hb
      refine ⟨d, _, by rw [jdumpV, he], digit_not_ws hd, (digit_ne hd).2.2.2.2.2.2.2.2.2.1⟩
    · exact ⟨'-', _, by rw [jdumpV, he], by decide, by decide⟩
  | arr xs =>
    cases xs with
    | nil => exact ⟨'[', _, rfl, by decide, by decide⟩
    | cons y ys => exact ⟨'[', _, rfl, by decide, by decide⟩
  | obj kvs =>
    cases kvs with
    | nil => exact ⟨lbrace, _, rfl, by decide, by decide⟩
    | cons kv r =>
      rcases kv with ⟨k, v0⟩
      exact ⟨lbrace, _, rfl, by decide, by decide⟩

theorem jdumpV_len (v : Json) (h : jsonWF v = true) : 1 ≤ (jdumpV v).length := by
  obtain ⟨c, t, he, -, -⟩ := jdumpV_head v h
  rw [he]
  simp

theorem startsWithL_cons_ne {p c : Char} (h : ¬ p = c) (ps t : List Char) :
    startsWithL (p :: ps) (c :: t) = false := by
  simp [startsWithL, h]

theorem skipJWs_cons {c : Char}
    (h : (c = ' ' || c = '\t' || c = '\n' || c = '\r') = false) (t : List Char) :
    skipJWs (c :: t) = c :: t := by
  unfold skipJWs
  rw [List.dropWhile_cons_of_neg (by simp [h])]

theorem skipJWs_space (t : List Char) : skipJWs (' ' :: t) = skipJWs t := by
  unfold skipJWs
  rw [List.dropWhile_cons_of_pos (by decide)]

theorem numShape_head {tok : List Char} (h : numShape tok) :
    ∃ c0 t0, tok = c0 :: t0 ∧
      (c0 = 'N' ∨ c0 = 'I' ∨ c0 = '-' ∨ c0.isDigit = true) := by
  rcases h with rfl | rfl | rfl | hb | ⟨bt, rfl, hb⟩
  · exact ⟨'N', _, rfl, Or.inl rfl⟩
  · exact ⟨'I', _, rfl, Or.inr (Or.inl rfl)⟩
  · exact ⟨'-', _, rfl, Or.inr (Or.inr (Or.inl rfl))⟩
  · obtain ⟨d, ints, frac, ex, he, hd, -, -, -, -⟩ := hb
    exact ⟨d, _, he, Or.inr (Or.inr (Or.inr hd))⟩
  · exact ⟨'-', _, rfl, Or.inr (Or.inr (Or.inl rfl))⟩

theorem sepOk_arrTail (ys : List Json) (rest : List Char) :
    sepOk (jdumpArrTail ys ++ rest) := by
  cases ys with
  | nil => exact sepOk_cons (by decide) rest
  | cons y ys' => exact sepOk_cons (by decide) _

theorem sepOk_objTail (kvs : List (String × Json)) (rest : List Char) :
    sepOk (jdumpObjTail kvs ++ rest) := by
  cases kvs with
  | nil => exact sepOk_cons (by decide) rest
  | cons kv r =>
    rcases kv with ⟨k, v⟩
    exact sepOk_cons (by decide) _

theorem keyFree_append (k : String) (a b : List (String × Json)) :
    keyFree k (a ++ b) = (keyFree k a && keyFree k b) := by
  induction a with
  | nil => simp [keyFree]
  | cons kv r ih =>
    rcases kv with ⟨k2, v2⟩
    simp [keyFree, ih, Bool.and_assoc]

theorem keysNodup_mid : ∀ (acc : List (String × Json)) (k : String) (v : Json)
    (r : List (String × Json)), keysNodup (acc ++ (k, v) :: r) = true →
    keyFree k acc = true := by
  intro acc
  induction acc with
  | nil => intro k v r _; rfl
  | cons kv acc' ih =>
    intro k v r h
    rcases kv with ⟨k2, v2⟩
    simp only [List.cons_append, keysNodup, Bool.and_eq_true, List.append_eq] at h
    obtain ⟨hfree, hrest⟩ := h
    rw [keyFree_append] at hfree
    simp only [Bool.and_eq_true] at hfree
    have hk : (k != k2) = true := by
      have := hfree.2
      simp only [keyFree, Bool.and_eq_true] at this
      exact this.1
    simp only [keyFree, Bool.and_eq_true]
    refine ⟨?_, ih k v r hrest⟩
    simp only [bne_iff_ne] at hk ⊢
    exact fun he => hk he.symm

theorem objInsert_fresh (k : String) (v : Json) :
    ∀ acc, keyFree k acc = true → objInsert acc k v = acc ++ [(k, v)] := by
  intro acc
  induction acc with
  | nil => intro _; rfl
  | cons kv r ih =>
    rcases kv with ⟨k2, v2⟩
    intro h
    simp only [keyFree, Bool.and_eq_true] at h
    obtain ⟨hne, hr⟩ := h
    simp only [bne_iff_ne] at hne
    simp only [objInsert, if_neg hne, ih hr, List.cons_append]

/-! ### Single-step reductions of the value parser on dumped input -/

theorem parseVal_null (f : Nat) (rest : List Char) :
    parseVal (f + 1) ('n' :: 'u' :: 'l' :: 'l' :: rest) = some (Json.null, rest) := by
  have hb : ¬ ('n' = lbrace) := by decide
  have hT : startsWithL "true".data ('n' :: 'u' :: 'l' :: 'l' :: rest) = false :=
    startsWithL_cons_ne (by decide) "rue".data _
  have hF : startsWithL "false".data ('n' :: 'u' :: 'l' :: 'l' :: rest) = false :=
    startsWithL_cons_ne (by decide) "alse".data _
  have hN : startsWithL "null".data ('n' :: 'u' :: 'l' :: 'l' :: rest) = true :=
    startsWithL_append "null".data rest
  simp [parseVal, hb, hT, hF, hN]

theorem parseVal_true (f : Nat) (rest : List Char) :
    parseVal (f + 1) ('t' :: 'r' :: 'u' :: 'e' :: rest) = some (Json.bool true, rest) := by
  have hb : ¬ ('t' = lbrace) := by decide
  have hT : startsWithL "true".data ('t' :: 'r' :: 'u' :: 'e' :: rest) = true :=
    startsWithL_append "true".data rest
  simp [parseVal, hb, hT]

theorem parseVal_false (f : Nat) (rest : List Char) :
    parseVal (f + 1) ('f' :: 'a' :: 'l' :: 's' :: 'e' :: rest) =
      some (Json.bool false, rest) := by
  have hb : ¬ ('f' = lbrace) := by decide
  have hT : startsWithL "true".data ('f' :: 'a' :: 'l' :: 's' :: 'e' :: rest) = false :=
    startsWithL_cons_ne (by decide) "rue".data _
  have hF : startsWithL "false".data ('f' :: 'a' :: 'l' :: 's' :: 'e' :: rest) = true :=
    startsWithL_append "false".data rest
  simp [parseVal, hb, hT, hF]

theorem parseVal_str (f : Nat) (s : String) (rest : List Char) :
    parseVal (f + 1) ('\"' :: (escList s.data ++ '\"' :: rest)) =
      some (Json.str s, rest) := by
  simp only [parseVal, if_true]
  rw [parseStr_call]
  simp

theorem parseVal_num (f : Nat) {c0 : Char} (t0 : List Char)
    (h1 : ¬ c0 = '\"') (h2 : ¬ c0 = lbrace) (h3 : ¬ c0 = '[')
    (h4 : ¬ c0 = 't') (h5 : ¬ c0 = 'f') (h6 : ¬ c0 = 'n') :
    parseVal (f + 1) (c0 :: t0) =
      (match parseNumTok (c0 :: t0) with
       | some (tok, rest) => some (Json.num (String.mk tok), rest)
       | none => none) := by
  have hT : startsWithL "true".data (c0 :: t0) = false :=
    startsWithL_cons_ne (fun he => h4 he.symm) "rue".data t0
  have hF : startsWithL "false".data (c0 :: t0) = false :=
    startsWithL_cons_ne (fun he => h5 he.symm) "alse".data t0
  have hN : startsWithL "null".data (c0 :: t0) = false :=
    startsWithL_cons_ne (fun he => h6 he.symm) "ull".data t0
  simp [parseVal, h1, h2, h3, hT, hF, hN]

theorem parseVal_arr_nil (f : Nat) (rest : List Char) :
    parseVal (f + 1) ('[' :: ']' :: rest) = some (Json.arr [], rest) := by
  have hb : ¬ ('[' = lbrace) := by decide
  simp [parseVal, hb, skipJWs_cons (c := ']') (by decide)]

theorem parseVal_arr_cons (f : Nat) {c : Char} (t2 : List Char)
    (hws : (c = ' ' || c = '\t' || c = '\n' || c = '\r') = false)
    (hne : ¬ c = ']') :
    parseVal (f + 1) ('[' :: (c :: t2)) =
      (match parseVal f (c :: t2) with
       | none => none
       | some (v, r2) =>
         match arrRest f r2 with
         | none => none
         | some (vs, r3) => some (Json.arr (v :: vs), r3)) := by
  have hb : ¬ ('[' = lbrace) := by decide
  simp [parseVal, hb, skipJWs_cons hws, hne]

theorem parseVal_obj_nil (f : Nat) (rest : List Char) :
    parseVal (f + 1) (lbrace :: rbrace :: rest) = some (Json.obj [], rest) := by
  have hq : ¬ (lbrace = '\"') := by decide
  simp [parseVal, hq, skipJWs_cons (c := rbrace) (by decide)]

theorem parseVal_obj_cons (f : Nat) (k : String) (X : List Char) :
    parseVal (f + 1)
      (lbrace :: ('\"' :: (escList k.data ++ '\"' :: (':' :: ' ' :: X)))) =
      (match parseVal f (skipJWs X) with
       | none => none
       | some (v, r4) => objRest f (objInsert [] k v) r4) := by
  have hq : ¬ (lbrace = '\"') := by decide
  have hr : ¬ ('\"' = rbrace) := by decide
  have hs : parseStrAux ((escList k.data ++ '\"' :: (':' :: ' ' :: X)).length + 1) []
      (escList k.data ++ '\"' :: (':' :: ' ' :: X)) = some (k, ':' :: ' ' :: X) :=
    parseStr_call k _
  simp only [List.length_append, List.length_cons] at hs
  simp [parseVal, hq, hr, skipJWs_cons (c := '\"') (by decide), hs,
    skipJWs_cons (c := ':') (by decide), skipJWs_space]

theorem arrRest_close (f : Nat) (rest : List Char) :
    arrRest f (']' :: rest) = some ([], rest) := by
  conv_lhs => rw [arrRest]
  simp [skipJWs_cons (c := ']') (by decide)]

theorem arrRest_comma (g : Nat) (rs : List Char) :
    arrRest (g + 1) (',' :: rs) =
      (match parseVal g (skipJWs rs) with
       | none => none
       | some (v, r2) =>
         match arrRest g r2 with
         | none => none
         | some (vs, r3) => some (v :: vs, r3)) := by
  have hne : ¬ (',' = ']') := by decide
  conv_lhs => rw [arrRest]
  simp [skipJWs_cons (c := ',') (by decide), hne]

theorem objRest_close (f : Nat) (acc : List (String × Json)) (rest : List Char) :
    objRest f acc (rbrace :: rest) = some (Json.obj acc, rest) := by
  conv_lhs => rw [objRest]
  simp [skipJWs_cons (c := rbrace) (by decide)]

theorem objRest_comma (g : Nat) (acc : List (String × Json)) (k : String)
    (X : List Char) :
    objRest (g + 1) acc
      (',' :: ' ' :: ('\"' :: (escList k.data ++ '\"' :: (':' :: ' ' :: X)))) =
      (match parseVal g (skipJWs X) with
       | none => none
       | some (v, r4) => objRest g (objInsert acc k v) r4) := by
  have hne : ¬ (',' = rbrace) := by decide
  have hs : parseStrAux ((escList k.data ++ '\"' :: (':' :: ' ' :: X)).length + 1) []
      (escList k.data ++ '\"' :: (':' :: ' ' :: X)) = some (k, ':' :: ' ' :: X) :=
    parseStr_call k _
  simp only [List.length_append, List.length_cons] at hs
  conv_lhs => rw [objRest]
  simp [hne, skipJWs_cons (c := ',') (by decide), skipJWs_space,
    skipJWs_cons (c := '\"') (by decide), hs, skipJWs_cons (c := ':') (by decide)]

/-- The serialization of a well-formed value parses back to the value, with
any following text (that cannot extend a number token) left as the remainder;
likewise for array tails and object tails.  Fuel `length + 1` suffices. -/
theorem dump_parse_all : ∀ f : Nat,
    (∀ v rest, jsonWF v = true → sepOk rest →
      (jdumpV v ++ rest).length < f →
      parseVal f (jdumpV v ++ rest) = some (v, rest)) ∧
    (∀ ys rest, jsonWFA ys = true →
      (jdumpArrTail ys ++ rest).length < f →
      arrRest f (jdumpArrTail ys ++ rest) = some (ys, rest)) ∧
    (∀ kvs acc rest, jsonWFO kvs = true → keysNodup (acc ++ kvs) = true →
      (jdumpObjTail kvs ++ rest).length < f →
      objRest f acc (jdumpObjTail kvs ++ rest) = some (Json.obj (acc ++ kvs), rest)) := by
  intro f
  induction f using Nat.strong_induction_on with
  | _ f IH =>
  refine ⟨?_, ?_, ?_⟩
  · intro v rest hwf hsep hlen
    cases f with
    | zero => exact absurd hlen (Nat.not_lt_zero _)
    | succ f' =>
      have IH1 := (IH f' (Nat.lt_succ_self f')).1
      have IH2 := (IH f' (Nat.lt_succ_self f')).2.1
      have IH3 := (IH f' (Nat.lt_succ_self f')).2.2
      cases v with
      | null => exact parseVal_null f' rest
      | bool b =>
        cases b with
        | true => exact parseVal_true f' rest
        | false => exact parseVal_false f' rest
      | num raw =>
        have hshape : numShape raw.data := numOk_shape hwf
        obtain ⟨c0, t0, hdat, hcs⟩ := numShape_head hshape
        have hne : ¬ c0 = '\"' ∧ ¬ c0 = lbrace ∧ ¬ c0 = '[' ∧ ¬ c0 = 't' ∧
            ¬ c0 = 'f' ∧ ¬ c0 = 'n' := by
          rcases hcs with rfl | rfl | rfl | hd
          · exact ⟨by decide, by decide, by decide, by decide, by decide, by decide⟩
          · exact ⟨by decide, by decide, by decide, by decide, by decide, by decide⟩
          · exact ⟨by decide, by decide, by decide, by decide, by decide, by decide⟩
          · have h := digit_ne hd
            exact ⟨h.2.2.2.2.2.2.1, h.2.2.2.2.2.2.2.1, h.2.2.2.2.2.2.2.2.1,
              h.2.2.2.1, h.2.2.2.2.1, h.2.2.2.2.2.1⟩
        have hjd : jdumpV (Json.num raw) ++ rest = c0 :: (t0 ++ rest) := by
          show raw.data ++ rest = c0 :: (t0 ++ rest)
          rw [hdat]
          rfl
        rw [hjd, parseVal_num f' (t0 ++ rest) hne.1 hne.2.1 hne.2.2.1 hne.2.2.2.1
          hne.2.2.2.2.1 hne.2.2.2.2.2]
        have hp : parseNumTok (c0 :: (t0 ++ rest)) = some (c0 :: t0, rest) := by
          have h := parseNumTok_ext hshape hsep
          rw [hdat] at h
          simpa using h
        rw [hp]
        show some (Json.num (String.mk (c0 :: t0)), rest) = some (Json.num raw, rest)
        have hmk : String.mk (c0 :: t0) = raw := by
          rw [← hdat, strEta]
        rw [hmk]
      | str s =>
        have he : jdumpV (Json.str s) ++ rest =
            '\"' :: (escList s.data ++ '\"' :: rest) := by
          show ('\"' :: escList s.data ++ ['\"']) ++ rest = _
          simp
        rw [he]
        exact parseVal_str f' s rest
      | arr xs =>
        cases xs with
        | nil => exact parseVal_arr_nil f' rest
        | cons y ys =>
          have hwf2 : jsonWF y = true ∧ jsonWFA ys = true := by
            have : jsonWF (Json.arr (y :: ys)) = (jsonWF y && jsonWFA ys) := rfl
            rw [this, Bool.and_eq_true] at hwf
            exact hwf
          obtain ⟨c, t, hje, hws, hne⟩ := jdumpV_head y hwf2.1
          have hlen2 : ((jdumpV y ++ (jdumpArrTail ys ++ rest)).length < f') ∧
              ((jdumpArrTail ys ++ rest).length < f') := by
            have h1 := jdumpV_len y hwf2.1
            have : jdumpV (Json.arr (y :: ys)) ++ rest =
                '[' :: (jdumpV y ++ (jdumpArrTail ys ++ rest)) := by
              show ('[' :: (jdumpV y ++ jdumpArrTail ys)) ++ rest = _
              simp
            rw [this] at hlen
            simp only [List.length_cons, List.length_append] at hlen h1 ⊢
            omega
          have hin : jdumpV (Json.arr (y :: ys)) ++ rest =
              '[' :: (c :: (t ++ (jdumpArrTail ys ++ rest))) := by
            show ('[' :: (jdumpV y ++ jdumpArrTail ys)) ++ rest = _
            rw [hje]
            simp
          rw [hin, parseVal_arr_cons f' _ hws hne]
          have hback : c :: (t ++ (jdumpArrTail ys ++ rest)) =
              jdumpV y ++ (jdumpArrTail ys ++ rest) := by
            rw [hje]
            rfl
          rw [hback]
          simp only [IH1 y _ hwf2.1 (sepOk_arrTail ys rest) hlen2.1,
            IH2 ys rest hwf2.2 hlen2.2]
      | obj kvs =>
        cases kvs with
        | nil => exact parseVal_obj_nil f' rest
        | cons kv r =>
          rcases kv with ⟨k, v0⟩
          have hwf2 : keysNodup ((k, v0) :: r) = true ∧ jsonWF v0 = true ∧
              jsonWFO r = true := by
            have : jsonWF (Json.obj ((k, v0) :: r)) =
                (keysNodup ((k, v0) :: r) && (jsonWF v0 && jsonWFO r)) := rfl
            rw [this, Bool.and_eq_true, Bool.and_eq_true] at hwf
            exact ⟨hwf.1, hwf.2.1, hwf.2.2⟩
          have hin : jdumpV (Json.obj ((k, v0) :: r)) ++ rest =
              lbrace :: ('\"' :: (escList k.data ++ '\"' :: (':' :: ' ' ::
                (jdumpV v0 ++ (jdumpObjTail r ++ rest))))) := by
            show (lbrace :: (('\"' :: escList k.data ++ ['\"']) ++
              ':' :: ' ' :: (jdumpV v0 ++ jdumpObjTail r))) ++ rest = _
            simp
          have hlen2 : ((jdumpV v0 ++ (jdumpObjTail r ++ rest)).length < f') ∧
              ((jdumpObjTail r ++ rest).length < f') := by
            have h1 := jdumpV_len v0 hwf2.2.1
            rw [hin] at hlen
            simp only [List.length_cons, List.length_append] at hlen h1 ⊢
            omega
          rw [hin, parseVal_obj_cons f' k _]
          obtain ⟨c, t, hje, hws, -⟩ := jdumpV_head v0 hwf2.2.1
          have hskip : skipJWs (jdumpV v0 ++ (jdumpObjTail r ++ rest)) =
              jdumpV v0 ++ (jdumpObjTail r ++ rest) := by
            rw [hje]
            exact skipJWs_cons hws _
          rw [hskip]
          simp only [IH1 v0 _ hwf2.2.1 (sepOk_objTail r rest) hlen2.1]
          have hacc : objInsert [] k v0 = [(k, v0)] := rfl
          rw [hacc, IH3 r [(k, v0)] rest hwf2.2.2 hwf2.1 hlen2.2]
          rfl
  · intro ys rest hwf hlen
    cases ys with
    | nil => exact arrRest_close f rest
    | cons y ys' =>
      cases f with
      | zero => exact absurd hlen (Nat.not_lt_zero _)
      | succ g =>
        have IH1 := (IH g (Nat.lt_succ_self g)).1
        have IH2 := (IH g (Nat.lt_succ_self g)).2.1
        have hwf2 : jsonWF y = true ∧ jsonWFA ys' = true := by
          have : jsonWFA (y :: ys') = (jsonWF y && jsonWFA ys') := rfl
          rw [this, Bool.and_eq_true] at hwf
          exact hwf
        have hin : jdumpArrTail (y :: ys') ++ rest =
            ',' :: (' ' :: (jdumpV y ++ (jdumpArrTail ys' ++ rest))) := by
          show (',' :: ' ' :: (jdumpV y ++ jdumpArrTail ys')) ++ rest = _
          simp
        have hlen2 : ((jdumpV y ++ (jdumpArrTail ys' ++ rest)).length < g) ∧
            ((jdumpArrTail ys' ++ rest).length < g) := by
          have h1 := jdumpV_len y hwf2.1
          rw [hin] at hlen
          simp only [List.length_cons, List.length_append] at hlen h1 ⊢
          omega
        rw [hin, arrRest_comma g _]
        obtain ⟨c, t, hje, hws, -⟩ := jdumpV_head y hwf2.1
        have hskip : skipJWs (' ' :: (jdumpV y ++ (jdumpArrTail ys' ++ rest))) =
            jdumpV y ++ (jdumpArrTail ys' ++ rest) := by
          rw [skipJWs_space, hje]
          exact skipJWs_cons hws _
        rw [hskip]
        simp only [IH1 y _ hwf2.1 (sepOk_arrTail ys' rest) hlen2.1,
          IH2 ys' rest hwf2.2 hlen2.2]
  · intro kvs acc rest hwo hnd hlen
    cases kvs with
    | nil =>
      have := objRest_close f acc rest
      rw [List.append_nil]
      exact this
    | cons kv r =>
      rcases kv with ⟨k, v0⟩
      cases f with
      | zero => exact absurd hlen (Nat.not_lt_zero _)
      | succ g =>
        have IH1 := (IH g (Nat.lt_succ_self g)).1
        have IH3 := (IH g (Nat.lt_succ_self g)).2.2
        have hwo2 : jsonWF v0 = true ∧ jsonWFO r = true := by
          have : jsonWFO ((k, v0) :: r) = (jsonWF v0 && jsonWFO r) := rfl
          rw [this, Bool.and_eq_true] at hwo
          exact hwo
        have hin : jdumpObjTail ((k, v0) :: r) ++ rest =
            ',' :: ' ' :: ('\"' :: (escList k.data ++ '\"' :: (':' :: ' ' ::
              (jdumpV v0 ++ (jdumpObjTail r ++ rest))))) := by
          show (',' :: ' ' :: (('\"' :: escList k.data ++ ['\"']) ++
            ':' :: ' ' :: (jdumpV v0 ++ jdumpObjTail r))) ++ rest = _
          simp
        have hlen2 : ((jdumpV v0 ++ (jdumpObjTail r ++ rest)).length < g) ∧
            ((jdumpObjTail r ++ rest).length < g) := by
          have h1 := jdumpV_len v0 hwo2.1
          rw [hin] at hlen
          simp only [List.length_cons, List.length_append] at hlen h1 ⊢
          omega
        rw [hin, objRest_comma g acc k _]
        obtain ⟨c, t, hje, hws, -⟩ := jdumpV_head v0 hwo2.1
        have hskip : skipJWs (jdumpV v0 ++ (jdumpObjTail r ++ rest)) =
            jdumpV v0 ++ (jdumpObjTail r ++ rest) := by
          rw [hje]
          exact skipJWs_cons hws _
        rw [hskip]
        simp only [IH1 v0 _ hwo2.1 (sepOk_objTail r rest) hlen2.1]
        have hfree : keyFree k acc = true := keysNodup_mid acc k v0 r hnd
        rw [objInsert_fresh k v0 acc hfree]
        have hnd2 : keysNodup ((acc ++ [(k, v0)]) ++ r) = true := by
          rw [List.append_assoc]
          exact hnd
        rw [IH3 r (acc ++ [(k, v0)]) rest hwo2.2 hnd2 hlen2.2, List.append_assoc]
        rfl

/-- `json.loads(json.dumps(v))` recovers every well-formed value `v`. -/
theorem jsonLoads_dump (v : Json) (h : jsonWF v = true) :
    jsonLoads (jdumpS v) = some v := by
  obtain ⟨c, t, hje, hws, -⟩ := jdumpV_head v h
  have hskip : skipJWs (jdumpS v).data = jdumpV v := by
    show skipJWs (jdumpV v) = jdumpV v
    rw [hje]
    exact skipJWs_cons hws t
  have hp : parseVal ((jdumpV v).length + 1) (jdumpV v) = some (v, []) := by
    have h2 := (dump_parse_all ((jdumpV v).length + 1)).1 v [] h sepOk_nil (by simp)
    simpa using h2
  simp only [jsonLoads, hskip, hp]
  rfl

theorem keyFree_objInsert {x k : String} (v : Json) (hne : (x != k) = true) :
    ∀ acc, keyFree x acc = true → keyFree x (objInsert acc k v) = true := by
  have hkx : (k != x) = true := by
    simp only [bne_iff_ne] at hne ⊢
    exact fun he => hne he.symm
  intro acc
  induction acc with
  | nil =>
    intro _
    simp [objInsert, keyFree, hkx]
  | cons kv r ih =>
    rcases kv with ⟨k2, v2⟩
    intro h
    simp only [keyFree, Bool.and_eq_true] at h
    by_cases he : k2 = k
    · simp only [objInsert, if_pos he, keyFree, Bool.and_eq_true]
      exact ⟨h.1, h.2⟩
    · simp only [objInsert, if_neg he, keyFree, Bool.and_eq_true]
      exact ⟨h.1, ih h.2⟩

theorem objInsert_nodup (k : String) (v : Json) :
    ∀ acc, keysNodup acc = true → keysNodup (objInsert acc k v) = true := by
  intro acc
  induction acc with
  | nil => intro _; rfl
  | cons kv r ih =>
    rcases kv with ⟨k2, v2⟩
    intro h
    simp only [keysNodup, Bool.and_eq_true] at h
    by_cases he : k2 = k
    · simp only [objInsert, if_pos he, keysNodup, Bool.and_eq_true]
      exact ⟨h.1, h.2⟩
    · simp only [objInsert, if_neg he, keysNodup, Bool.and_eq_true]
      have hne : (k2 != k) = true := by
        simp only [bne_iff_ne]
        exact he
      exact ⟨keyFree_objInsert v hne r h.1, ih h.2⟩

theorem objInsert_WFO (k : String) (v : Json) (hv : jsonWF v = true) :
    ∀ acc, jsonWFO acc = true → jsonWFO (objInsert acc k v) = true := by
  intro acc
  induction acc with
  | nil =>
    intro _
    show (jsonWF v && jsonWFO []) = true
    simp [hv, jsonWFO]
  | cons kv r ih =>
    rcases kv with ⟨k2, v2⟩
    intro h
    have h2 : (jsonWF v2 && jsonWFO r) = true := h
    simp only [Bool.and_eq_true] at h2
    by_cases he : k2 = k
    · simp only [objInsert, if_pos he]
      show (jsonWF v && jsonWFO r) = true
      simp [hv, h2.2]
    · simp only [objInsert, if_neg he]
      show (jsonWF v2 && jsonWFO (objInsert r k v)) = true
      simp [h2.1, ih h2.2]

theorem objGet_WF : ∀ (kvs : List (String × Json)), jsonWFO kvs = true →
    ∀ k v, objGet kvs k = some v → jsonWF v = true := by
  intro kvs
  induction kvs with
  | nil => intro _ k v h; simp [objGet] at h
  | cons kv r ih =>
    rcases kv with ⟨k2, v2⟩
    intro h k v hg
    have h2 : (jsonWF v2 && jsonWFO r) = true := h
    simp only [Bool.and_eq_true] at h2
    simp only [objGet] at hg
    by_cases he : k2 = k
    · rw [if_pos he] at hg
      simp only [Option.some.injEq] at hg
      rw [← hg]
      exact h2.1
    · rw [if_neg he] at hg
      exact ih h2.2 k v hg

/-- Every value produced by the parser is well formed: number lexemes
re-parse (`numOk`) and object keys are pairwise distinct. -/
theorem parse_WF_all : ∀ f : Nat,
    (∀ l v rest, parseVal f l = some (v, rest) → jsonWF v = true) ∧
    (∀ l vs rest, arrRest f l = some (vs, rest) → jsonWFA vs = true) ∧
    (∀ acc l v rest, keysNodup acc = true → jsonWFO acc = true →
      objRest f acc l = some (v, rest) → jsonWF v = true) := by
  intro f
  induction f using Nat.strong_induction_on with
  | _ f IH =>
  refine ⟨?_, ?_, ?_⟩
  · intro l v rest h
    cases f with
    | zero => simp [parseVal] at h
    | succ f' =>
      have IHP := (IH f' (Nat.lt_succ_self f')).1
      have IHQ := (IH f' (Nat.lt_succ_self f')).2.1
      have IHR := (IH f' (Nat.lt_succ_self f')).2.2
      cases l with
      | nil => simp [parseVal] at h
      | cons c r =>
        simp only [parseVal] at h
        repeat' split at h
        all_goals try simp_all
        · obtain ⟨s, -, hv⟩ := h
          rw [← hv]
          rfl
        · rw [← h.1]
          rfl
        · rename_i hpv
          have hv1 := IHP _ _ _ hpv
          refine IHR _ _ _ _ ?_ ?_ h
          · simp [objInsert, keysNodup, keyFree]
          · simp only [objInsert]
            show (jsonWF _ && jsonWFO []) = true
            simp [hv1, jsonWFO]
        · rw [← h.1]
          rfl
        · rename_i hpv harr
          rw [← h.1]
          have h1 := IHP _ _ _ hpv
          have h2 := IHQ _ _ _ harr
          show jsonWFA _ = true
          simp [jsonWFA, h1, h2]
        · rw [← h.1]
          rfl
        · rw [← h.1]
          rfl
        · rw [← h.1]
          rfl
        · rename_i hpn
          rw [← h.1]
          have hs := (parseNumTok_shape_eq hpn).1
          show numOk (String.mk _) = true
          exact numShape_numOk hs
  · intro l vs rest h
    rw [arrRest] at h
    repeat' split at h
    all_goals try simp_all
    · rfl
    · rename_i hpv harr
      obtain ⟨hv, -⟩ := h
      rw [← hv]
      have h1 := (IH _ (Nat.lt_succ_self _)).1 _ _ _ hpv
      have h2 := (IH _ (Nat.lt_succ_self _)).2.1 _ _ _ harr
      simp [jsonWFA, h1, h2]
  · intro acc l v rest hnd hwo h
    rw [objRest] at h
    repeat' split at h
    all_goals try simp_all
    · obtain ⟨hv, -⟩ := h
      rw [← hv]
      show (keysNodup acc && jsonWFO acc) = true
      simp [hnd, hwo]
    · rename_i hpv
      have hv1 := (IH _ (Nat.lt_succ_self _)).1 _ _ _ hpv
      refine (IH _ (Nat.lt_succ_self _)).2.2 _ _ _ _ ?_ ?_ h
      · exact objInsert_nodup _ _ acc hnd
      · exact objInsert_WFO _ _ hv1 acc hwo

theorem jsonLoads_WF {s : String} {v : Json} (h : jsonLoads s = some v) :
    jsonWF v = true := by
  simp only [jsonLoads] at h
  cases hp : parseVal ((skipJWs s.data).length + 1) (skipJWs s.data) with
  | none => rw [hp] at h; simp at h
  | some p =>
    rcases p with ⟨v0, rest⟩
    rw [hp] at h
    split at h
    · rename_i v1 rest1 heq
      simp only [Option.some.injEq, Prod.mk.injEq] at heq
      split at h
      · simp only [Option.some.injEq] at h
        rw [← h, ← heq.1]
        exact (parse_WF_all _).1 _ _ _ hp
      · simp at h
    · simp at h

theorem jsonWFA_mem : ∀ (xs : List Json), jsonWFA xs = true →
    ∀ r ∈ xs, jsonWF r = true := by
  intro xs
  induction xs with
  | nil => intro _ r hr; simp at hr
  | cons y ys ih =>
    intro h r hr
    have h2 : (jsonWF y && jsonWFA ys) = true := h
    simp only [Bool.and_eq_true] at h2
    rcases List.mem_cons.mp hr with rfl | hm
    · exact h2.1
    · exact ih h2.2 r hm

theorem jsonWFA_of_mem : ∀ (xs : List Json), (∀ r ∈ xs, jsonWF r = true) →
    jsonWFA xs = true := by
  intro xs
  induction xs with
  | nil => intro _; rfl
  | cons y ys ih =>
    intro h
    show (jsonWF y && jsonWFA ys) = true
    simp [h y (List.mem_cons_self y ys), ih (fun r hr => h r (List.mem_cons_of_mem y hr))]

/-! ### The cleaning substitutions fix any text with no triple backtick -/

theorem startsWithL_front : ∀ (p1 p2 l : List Char),
    startsWithL (p1 ++ p2) l = true → startsWithL p1 l = true := by
  intro p1
  induction p1 with
  | nil => intro p2 l _; rfl
  | cons a ps ih =>
    intro p2 l h
    cases l with
    | nil => simp [startsWithL] at h
    | cons c cs =>
      simp only [List.cons_append, startsWithL, Bool.and_eq_true] at h ⊢
      exact ⟨h.1, ih p2 cs h.2⟩

theorem containsSub_starts {p t : List Char} (h : startsWithL p t = true) :
    containsSubL t p = true := by
  rw [containsSubL.eq_def]
  simp [h]

theorem containsSub_tail {p : List Char} (c : Char) (t : List Char)
    (h : containsSubL (c :: t) p = false) : containsSubL t p = false := by
  by_cases hs : containsSubL t p = true
  · have hc : containsSubL (c :: t) p = true := by
      by_cases hst : startsWithL p (c :: t) = true
      · exact containsSub_starts hst
      · rw [containsSubL.eq_def]
        simp only [if_neg hst]
        exact hs
    rw [hc] at h
    exact absurd h (by simp)
  · simpa using hs

theorem starts_false_of_contains_false {p t : List Char}
    (h : containsSubL t p = false) : startsWithL p t = false := by
  by_cases hs : startsWithL p t = true
  · rw [containsSub_starts hs] at h
    exact absurd h (by simp)
  · simpa using hs

theorem subAppScan_noop : ∀ (f : Nat) (l : List Char),
    containsSubL l "```".data = false → subAppScan f l = l := by
  intro f
  induction f with
  | zero => intro l _; rfl
  | succ f ih =>
    intro l h
    have hs3 : ¬ startsWithL "```".data l = true := by
      rw [starts_false_of_contains_false h]
      simp
    have hs7 : ¬ startsWithL "```json".data l = true := by
      intro hj
      exact hs3 (startsWithL_front "```".data "json".data l hj)
    simp only [subAppScan, if_neg hs7, if_neg hs3]
    cases l with
    | nil => rfl
    | cons c t =>
      have ht : containsSubL t "```".data = false := containsSub_tail c t h
      simp [ih t ht]

theorem subRecScan_noop : ∀ (f : Nat) (l : List Char),
    containsSubL l "```".data = false → subRecScan f l = l := by
  intro f
  induction f with
  | zero => intro l _; rfl
  | succ f ih =>
    intro l h
    have hs3 : ¬ startsWithL "```".data l = true := by
      rw [starts_false_of_contains_false h]
      simp
    have hs8 : ¬ startsWithL "```json\n".data l = true := by
      intro hj
      exact hs3 (startsWithL_front "```".data "json\n".data l hj)
    have hs4 : ¬ startsWithL "\n```".data l = true := by
      intro hj
      cases l with
      | nil => simp [startsWithL] at hj
      | cons c cs =>
        have hj2 : ('\n' = c ∧ startsWithL "```".data cs = true) := by
          have h0 : startsWithL ('\n' :: "```".data) (c :: cs) = true := hj
          simpa [startsWithL, Bool.and_eq_true] using h0
        have hc : containsSubL (c :: cs) "```".data = true := by
          by_cases hst : startsWithL "```".data (c :: cs) = true
          · exact containsSub_starts hst
          · rw [containsSubL.eq_def]
            simp only [if_neg hst]
            exact containsSub_starts hj2.2
        rw [hc] at h
        exact absurd h (by simp)
    simp only [subRecScan, if_neg hs8, if_neg hs4, if_neg hs3]
    cases l with
    | nil => rfl
    | cons c t =>
      have ht : containsSubL t "```".data = false := containsSub_tail c t h
      simp [ih t ht]

theorem jdumpArrTail_ends : ∀ (ys : List Json), ∃ p, jdumpArrTail ys = p ++ [']'] := by
  intro ys
  induction ys with
  | nil => exact ⟨[], rfl⟩
  | cons y ys' ih =>
    obtain ⟨p, hp⟩ := ih
    refine ⟨',' :: ' ' :: (jdumpV y ++ p), ?_⟩
    show ',' :: ' ' :: (jdumpV y ++ jdumpArrTail ys') = _
    rw [hp]
    simp

theorem jdumpArr_ends (xs : List Json) : ∃ p, jdumpV (Json.arr xs) = p ++ [']'] := by
  cases xs with
  | nil => exact ⟨['['], rfl⟩
  | cons y ys =>
    obtain ⟨p, hp⟩ := jdumpArrTail_ends ys
    refine ⟨'[' :: (jdumpV y ++ p), ?_⟩
    show '[' :: (jdumpV y ++ jdumpArrTail ys) = _
    rw [hp]
    simp

theorem jdumpArr_head (xs : List Json) :
    (jdumpV (Json.arr xs)).head? = some '[' := by
  cases xs with
  | nil => rfl
  | cons y ys => rfl

theorem strip_dumpArr (xs : List Json) :
    stripL (jdumpV (Json.arr xs)) = jdumpV (Json.arr xs) := by
  obtain ⟨p, hp⟩ := jdumpArr_ends xs
  apply stripL_noop
  · intro c hc
    rw [jdumpArr_head xs] at hc
    simp only [Option.some.injEq] at hc
    rw [← hc]
    decide
  · intro c hc
    rw [hp, List.getLast?_concat] at hc
    simp only [Option.some.injEq] at hc
    rw [← hc]
    decide

theorem cleanApp_dump (xs : List Json)
    (h : pyContains (jdumpS (Json.arr xs)) "```" = false) :
    cleanApp (jdumpS (Json.arr xs)) = jdumpS (Json.arr xs) := by
  have h2 : containsSubL (jdumpV (Json.arr xs)) "```".data = false := h
  show String.mk (stripL (subAppScan ((stripL (jdumpV (Json.arr xs))).length + 1)
    (stripL (jdumpV (Json.arr xs))))) = jdumpS (Json.arr xs)
  rw [strip_dumpArr xs, subAppScan_noop _ _ h2, strip_dumpArr xs]
  rfl

theorem cleanRec_dump (xs : List Json)
    (h : pyContains (jdumpS (Json.arr xs)) "```" = false) :
    cleanRec (jdumpS (Json.arr xs)) = jdumpS (Json.arr xs) := by
  have h2 : containsSubL (jdumpV (Json.arr xs)) "```".data = false := h
  show String.mk (subRecScan ((stripL (jdumpV (Json.arr xs))).length + 1)
    (stripL (jdumpV (Json.arr xs)))) = jdumpS (Json.arr xs)
  rw [strip_dumpArr xs, subRecScan_noop _ _ h2]
  rfl

theorem strip_dump_ne_empty (xs : List Json) :
    (pyStrip (jdumpS (Json.arr xs))).isEmpty = false := by
  have hp : pyStrip (jdumpS (Json.arr xs)) = jdumpS (Json.arr xs) := by
    show String.mk (stripL (jdumpV (Json.arr xs))) = _
    rw [strip_dumpArr xs]
    rfl
  rw [hp]
  have hne : jdumpS (Json.arr xs) ≠ "" := by
    intro he
    have hd := congrArg String.data he
    have hd2 : jdumpV (Json.arr xs) = [] := hd
    obtain ⟨p, hp2⟩ := jdumpArr_ends xs
    rw [hp2] at hd2
    simp at hd2
  rw [Bool.eq_false_iff]
  intro hb
  exact hne ((String.isEmpty_iff _).mp hb)

/-! ### The validity test on its own kept output -/

theorem filterCond_true_elim {t : String} {r : Json}
    (h : filterCond t r = .ok true) :
    ∃ kvs v s, r = Json.obj kvs ∧ objGet kvs "title" = some v ∧
      jsonTruthy v = true ∧ objGet kvs "link" = some (Json.str s) ∧
      strStarts s "http" = true ∧ pyEqStr v t = false := by
  obtain ⟨kvs, rfl⟩ := filterCond_true_shape h
  simp only [filterCond] at h
  split at h
  · exact absurd h (by simp)
  · rename_i hcond
    split at h
    · rename_i s hlink
      split at h
      · exact absurd h (by simp)
      · rename_i hstart
        simp only [Except.ok.injEq] at h
        cases hg : objGet kvs "title" with
        | none => rw [hg] at hcond; simp at hcond
        | some v =>
          rw [hg] at hcond h
          simp only [Option.getD_some] at h
          simp only [Bool.not_eq_true'] at h
          have htr : jsonTruthy v = true := by simpa using hcond
          have hst : strStarts s "http" = true := by simpa using hstart
          cases hl : objGet kvs "link" with
          | none =>
            rw [hl] at hlink
            simp only [Option.getD_none, Json.str.injEq] at hlink
            rw [← hlink] at hst
            exact absurd hst (by decide)
          | some lv =>
            rw [hl] at hlink
            simp only [Option.getD_some] at hlink
            exact ⟨kvs, v, s, rfl, hg, htr, by rw [hl, hlink], hst, by simpa using h⟩
    · rename_i hlink
      exact absurd h (by simp)

theorem filterCond_proj {t : String} {r : Json} (h : filterCond t r = .ok true) :
    filterCond t (appProj r) = .ok true ∧ appProj (appProj r) = appProj r := by
  obtain ⟨kvs, v, s, rfl, hg, htr, hl, hst, hne⟩ := filterCond_true_elim h
  have hproj : appProj (Json.obj kvs) =
      Json.obj [("title", v), ("link", Json.str s)] := by
    simp [appProj, hg, hl]
  have hg2 : objGet [("title", v), ("link", Json.str s)] "title" = some v := by
    simp [objGet]
  have hl2 : objGet [("title", v), ("link", Json.str s)] "link" =
      some (Json.str s) := by
    simp [objGet]
  refine ⟨?_, ?_⟩
  · rw [hproj]
    simp only [filterCond, hg2, hl2, htr, Option.getD_some]
    simp [hst, hne]
  · rw [hproj]
    simp [appProj, hg2, hl2, hproj]

theorem appProj_WF {t : String} {r : Json} (h : filterCond t r = .ok true)
    (hwf : jsonWF r = true) : jsonWF (appProj r) = true := by
  obtain ⟨kvs, v, s, rfl, hg, htr, hl, hst, hne⟩ := filterCond_true_elim h
  have hwo : jsonWFO kvs = true := by
    have h2 : (keysNodup kvs && jsonWFO kvs) = true := hwf
    simp only [Bool.and_eq_true] at h2
    exact h2.2
  have hv : jsonWF v = true := objGet_WF kvs hwo "title" v hg
  have hproj : appProj (Json.obj kvs) =
      Json.obj [("title", v), ("link", Json.str s)] := by
    simp [appProj, hg, hl]
  rw [hproj]
  show (keysNodup [("title", v), ("link", Json.str s)] &&
    jsonWFO [("title", v), ("link", Json.str s)]) = true
  simp [keysNodup, keyFree, jsonWFO, hv, jsonWF]

theorem appFilter_ok_mem (t : String) : ∀ (rs l : List Json),
    appFilterList t rs = .ok l →
    ∀ p ∈ l, ∃ r ∈ rs, filterCond t r = .ok true ∧ p = appProj r := by
  intro rs
  induction rs with
  | nil =>
    intro l h p hp
    simp [appFilterList] at h
    subst h
    simp at hp
  | cons r0 rest ih =>
    intro l h p hp
    unfold appFilterList at h
    cases hc : filterCond t r0 with
    | error e => rw [hc] at h; simp at h
    | ok b =>
      rw [hc] at h
      cases b with
      | true =>
        cases hrec : appFilterList t rest with
        | error e => rw [hrec] at h; simp at h
        | ok l2 =>
          rw [hrec] at h
          have h2 : appProj r0 :: l2 = l := by simpa using h
          rw [← h2] at hp
          rcases List.mem_cons.mp hp with rfl | hmem
          · exact ⟨r0, List.mem_cons_self r0 rest, hc, rfl⟩
          · obtain ⟨r, hr, hcr, hpr⟩ := ih l2 hrec p hmem
            exact ⟨r, List.mem_cons_of_mem r0 hr, hcr, hpr⟩
      | false =>
        obtain ⟨r, hr, hcr, hpr⟩ := ih l h p hp
        exact ⟨r, List.mem_cons_of_mem r0 hr, hcr, hpr⟩

theorem recFilter_ok_mem (t : String) : ∀ (rs l : List Json),
    recFilterList t rs = .ok l →
    ∀ p ∈ l, p ∈ rs ∧ filterCond t p = .ok true := by
  intro rs
  induction rs with
  | nil =>
    intro l h p hp
    simp [recFilterList] at h
    subst h
    simp at hp
  | cons r0 rest ih =>
    intro l h p hp
    unfold recFilterList at h
    cases hc : filterCond t r0 with
    | error e => rw [hc] at h; simp at h
    | ok b =>
      rw [hc] at h
      cases b with
      | true =>
        cases hrec : recFilterList t rest with
        | error e => rw [hrec] at h; simp at h
        | ok l2 =>
          rw [hrec] at h
          have h2 : r0 :: l2 = l := by simpa using h
          rw [← h2] at hp
          rcases List.mem_cons.mp hp with rfl | hmem
          · exact ⟨List.mem_cons_self p rest, hc⟩
          · obtain ⟨hr, hcr⟩ := ih l2 hrec p hmem
            exact ⟨List.mem_cons_of_mem r0 hr, hcr⟩
      | false =>
        obtain ⟨hr, hcr⟩ := ih l h p hp
        exact ⟨List.mem_cons_of_mem r0 hr, hcr⟩

theorem appFilter_fixed (t : String) : ∀ (l : List Json),
    (∀ p ∈ l, filterCond t p = .ok true ∧ appProj p = p) →
    appFilterList t l = .ok l := by
  intro l
  induction l with
  | nil => intro _; rfl
  | cons p ps ih =>
    intro h
    have hp := h p (List.mem_cons_self p ps)
    have hrec := ih (fun q hq => h q (List.mem_cons_of_mem p hq))
    simp only [appFilterList, hp.1, hrec, hp.2]

theorem recFilter_fixed (t : String) : ∀ (l : List Json),
    (∀ p ∈ l, filterCond t p = .ok true) → recFilterList t l = .ok l := by
  intro l
  induction l with
  | nil => intro _; rfl
  | cons p ps ih =>
    intro h
    have hp := h p (List.mem_cons_self p ps)
    have hrec := ih (fun q hq => h q (List.mem_cons_of_mem p hq))
    simp only [recFilterList, hp, hrec]

theorem appGetRecs_ok_inv {t raw : String} {l : List Json}
    (h : appGetRecs t raw = (l, [])) :
    ∃ recs, jsonLoads (cleanApp raw) = some (Json.arr recs) ∧
      appFilterList t recs = .ok l := by
  simp only [appGetRecs] at h
  cases hj : jsonLoads (cleanApp raw) with
  | none =>
    rw [hj] at h
    repeat' split at h
    all_goals simp_all
  | some v =>
    rw [hj] at h
    cases v with
    | arr recs =>
      replace h : (match appFilterList t recs with
        | .ok valid => (valid, ([] : List Msg))
        | .error _ => ([], [Msg.genError])) = (l, []) := h
      cases hf : appFilterList t recs with
      | error e => rw [hf] at h; simp at h
      | ok valid =>
        rw [hf] at h
        simp only [Prod.mk.injEq] at h
        exact ⟨recs, rfl, by rw [hf, h.1]⟩
    | null => simp at h
    | bool b => simp at h
    | num a => simp at h
    | str s2 => simp at h
    | obj kvs => simp at h

theorem recGetRecs_ok_inv {t raw : String} {l : List Json}
    (h : recGetRecs t raw = .ok (l, [])) :
    ∃ recs valid, jsonLoads (cleanRec raw) = some (Json.arr recs) ∧
      recFilterList t recs = .ok valid ∧ l = valid.take 5 := by
  simp only [recGetRecs] at h
  split at h
  · simp at h
  · cases hj : jsonLoads (cleanRec raw) with
    | none =>
      rw [hj] at h
      repeat' split at h
      all_goals simp_all
    | some v =>
      rw [hj] at h
      cases v with
      | arr recs =>
        replace h : (match recFilterList t recs with
          | .ok valid => Except.ok (valid.take 5, ([] : List Msg))
          | .error e => Except.error e) = Except.ok (l, []) := h
        cases hf : recFilterList t recs with
        | error e => rw [hf] at h; simp at h
        | ok valid =>
          rw [hf] at h
          simp only [Except.ok.injEq, Prod.mk.injEq] at h
          exact ⟨recs, valid, rfl, hf, h.1.symm⟩
      | null => simp at h
      | bool b => simp at h
      | num a => simp at h
      | str s2 => simp at h
      | obj kvs => simp at h

def w4raw : String :=
  "[\x7b\"title\": \"a\\u0060\\u0060\\u0060b\", \"link\": \"http://x\"\x7d]"

def w4l : List Json :=
  [Json.obj [("title", Json.str "a```b"), ("link", Json.str "http://x")]]

def w4wraw : String := "[\x7b\"title\": \"B\", \"link\": \"http://b\"\x7d]"

def w4wl : List Json :=
  [Json.obj [("title", Json.str "B"), ("link", Json.str "http://b")]]

/-- The title string of the first element of a recommendation list (used to
tell two extraction results apart without deciding equality of `Json`). -/
def firstTitleStr (l : List Json) : String :=
  match l with
  | r :: _ =>
    match titleValOf r with
    | .str s => s
    | _ => ""
  | [] => ""

/-! ## Claim C4 -/

/-- C4 (amended): re-running the extraction on the JSON serialization of a
previously returned success-path list, with the same excluded title, returns
the same list — in `app.py` and in `recommender.py` — provided the
serialization contains no triple backtick (the cleaning step would corrupt
it otherwise, see the counterexample). -/
theorem c4_extraction_idempotent (t rawA rawR : String) (la lr : List Json)
    (ha : appGetRecs t rawA = (la, []))
    (hca : pyContains (jdumpS (Json.arr la)) "```" = false)
    (hr : recGetRecs t rawR = Except.ok (lr, []))
    (hcr : pyContains (jdumpS (Json.arr lr)) "```" = false) :
    appGetRecs t (jdumpS (Json.arr la)) = (la, []) ∧
    recGetRecs t (jdumpS (Json.arr lr)) = Except.ok (lr, []) := by
  constructor
  · obtain ⟨recs, hj, hf⟩ := appGetRecs_ok_inv ha
    have hWFrecs : jsonWFA recs = true := jsonLoads_WF hj
    have hmem : ∀ p ∈ la,
        filterCond t p = .ok true ∧ appProj p = p ∧ jsonWF p = true := by
      intro p hp
      obtain ⟨r, hrm, hcr0, rfl⟩ := appFilter_ok_mem t recs la hf p hp
      have hwr := jsonWFA_mem recs hWFrecs r hrm
      obtain ⟨h1, h2⟩ := filterCond_proj hcr0
      exact ⟨h1, h2, appProj_WF hcr0 hwr⟩
    have hWFla : jsonWF (Json.arr la) = true := by
      show jsonWFA la = true
      exact jsonWFA_of_mem la (fun r hr0 => (hmem r hr0).2.2)
    have hload : jsonLoads (cleanApp (jdumpS (Json.arr la))) =
        some (Json.arr la) := by
      rw [cleanApp_dump la hca]
      exact jsonLoads_dump _ hWFla
    have hfix : appFilterList t la = .ok la :=
      appFilter_fixed t la (fun p hp => ⟨(hmem p hp).1, (hmem p hp).2.1⟩)
    simp only [appGetRecs, hload, hfix]
  · obtain ⟨recs, valid, hj, hf, hl5⟩ := recGetRecs_ok_inv hr
    have hWFrecs : jsonWFA recs = true := jsonLoads_WF hj
    have hmem : ∀ p ∈ lr, filterCond t p = .ok true ∧ jsonWF p = true := by
      intro p hp
      have hpv : p ∈ valid := by
        rw [hl5] at hp
        exact List.take_subset 5 valid hp
      obtain ⟨hpr, hcp⟩ := recFilter_ok_mem t recs valid hf p hpv
      exact ⟨hcp, jsonWFA_mem recs hWFrecs p hpr⟩
    have hWFlr : jsonWF (Json.arr lr) = true := by
      show jsonWFA lr = true
      exact jsonWFA_of_mem lr (fun r hr0 => (hmem r hr0).2)
    have hload : jsonLoads (cleanRec (jdumpS (Json.arr lr))) =
        some (Json.arr lr) := by
      rw [cleanRec_dump lr hcr]
      exact jsonLoads_dump _ hWFlr
    have hfix : recFilterList t lr = .ok lr :=
      recFilter_fixed t lr (fun p hp => (hmem p hp).1)
    have hlen : lr.length ≤ 5 := by
      rw [hl5]
      exact List.length_take_le 5 valid
    have htake : lr.take 5 = lr := List.take_of_length_le hlen
    have hguard : (pyStrip (jdumpS (Json.arr lr))).isEmpty = false :=
      strip_dump_ne_empty lr
    simp [recGetRecs, hguard, hload, hfix, htake]

/-- Witness for C4: a concrete validated output of each revision whose
serialization is backtick-free, on which re-extraction is the identity. -/
theorem c4_extraction_idempotent_witness :
    appGetRecs "A" w4wraw = (w4wl, []) ∧
    pyContains (jdumpS (Json.arr w4wl)) "```" = false ∧
    recGetRecs "A" w4wraw = Except.ok (w4wl, []) ∧
    appGetRecs "A" (jdumpS (Json.arr w4wl)) = (w4wl, []) ∧
    recGetRecs "A" (jdumpS (Json.arr w4wl)) = Except.ok (w4wl, []) := by
  have h1 : appGetRecs "A" w4wraw = (w4wl, []) := rfl
  have h2 : pyContains (jdumpS (Json.arr w4wl)) "```" = false := by decide
  have h3 : recGetRecs "A" w4wraw = Except.ok (w4wl, []) := rfl
  have hc := c4_extraction_idempotent "A" w4wraw w4wraw w4wl w4wl h1 h2 h3 h2
  exact ⟨h1, h2, h3, hc.1, hc.2⟩

/-- C4 counterexample: a validated output whose title contains three
backticks.  Its serialization re-parses, but the cleaning step strips the
backticks first, so re-extraction returns a list with first title `"ab"`
instead of `"a` + "``" + `b"` — extraction is not idempotent on it. -/
theorem c4_counterexample :
    appGetRecs "REF" w4raw = (w4l, []) ∧
    appGetRecs "REF" (jdumpS (Json.arr w4l)) ≠ (w4l, []) := by
  refine ⟨rfl, ?_⟩
  intro he
  exact absurd (congrArg (fun p => firstTitleStr p.1) he) (by decide)

end NewsRec
